import Mathlib

/-!
Verification of the VeritasAI RAG backend (Django/Python) against its
natural-language specification.

The development shallowly embeds the pipeline-relevant parts of the source:

* `app/services/chunking_service.py`   — `RecursiveChunkingService`
* `app/services/token_estimation_service.py` — `TokenEstimationService`
* `app/services/embedding_service.py`  — `EmbeddingService`
* `app/views.py`                       — `document_upload`, `chat_stream`
* `app/tasks/document_tasks.py`        — `_process_document_internal`

Python strings are modelled as `List Char` (or Lean `String`, whose `data`
field is a `List Char`), Python `int` as `Nat`/`Int`, floats that only ever
hold exact small arithmetic (retry delays, 20 % reserves) as `ℚ`, and
fallible/looping code via explicit fuel returning `Option`.
-/

namespace VeritasAI

/-! ## Python string primitives -/

/-- Python's `str.isspace` character class (ASCII part): the characters
removed by `str.strip()` and separating words for `str.split()`. -/
def pyIsSpace (c : Char) : Bool :=
  c = ' ' || c = '\t' || c = '\n' || c = '\r' || c = '\x0b' || c = '\x0c'

/-- Python `s.strip()` on a character list: drop whitespace from both ends. -/
def pyStrip (l : List Char) : List Char :=
  (l.dropWhile pyIsSpace).rdropWhile pyIsSpace

/-- Python `s.strip()` on a Lean `String`. -/
def pyStripS (s : String) : String :=
  ⟨pyStrip s.data⟩

/-- Python's slice `l[-k:]`.  For `k = 0` this is the WHOLE list
(`s[-0:] = s[0:] = s` in Python), otherwise the final `min k (length l)`
elements. -/
def pySuffix (k : Nat) (l : List Char) : List Char :=
  if k = 0 then l else l.drop (l.length - k)

/-- The pattern `x[-overlap:] if len(x) > overlap else ""` used by the
chunking service to compute the carried-over overlap. -/
def prevEnd (overlap : Nat) (l : List Char) : List Char :=
  if overlap < l.length then pySuffix overlap l else []

/-! ## TokenEstimationService (`app/services/token_estimation_service.py`) -/

/-- `TokenEstimationService.estimate_tokens`: 0 for empty or
whitespace-only text, otherwise ceiling division `(len + 3) // 4`. -/
def estimate_tokens (text : String) : Nat :=
  if text.data.isEmpty || (pyStrip text.data).isEmpty then 0
  else (text.length + 3) / 4

/-- `TokenEstimationService.would_exceed_limit`: true iff
`current_tokens + estimate_tokens(text_to_add) > max_tokens`. -/
def would_exceed_limit (currentTokens : Int) (textToAdd : String) (maxTokens : Int) : Bool :=
  maxTokens < currentTokens + (estimate_tokens textToAdd : Int)

/-! ## Document de-duplication (`app/views.py`, `document_upload`) -/

/-- Row of the `documents` table as far as de-duplication is concerned.
`Document.Meta` declares `unique_together = [['user', 'file_hash']]` with the
comment "Ensure file_hash is unique per user (not globally)". -/
structure DocRec where
  id : Nat
  userId : Nat
  fileHash : String
deriving DecidableEq, Repr

/-- The duplicate lookup performed by `document_upload`:
`Document.objects.filter(file_hash=file_hash).first()`.  Note that the
query filters on the hash only — it is NOT restricted to the uploading
user's documents. -/
def findDuplicate (docs : List DocRec) (fileHash : String) : Option DocRec :=
  (docs.filter (fun d => d.fileHash = fileHash)).head?

/-- Outcome of the upload path after hashing the file content. -/
inductive UploadOutcome where
  | existingDocument (id : Nat)
  | createdNew (userId : Nat)
deriving DecidableEq, Repr

/-- The de-duplication decision of `document_upload`: if any document with
the same content hash exists (owned by anyone), respond
"File already exists" with that document; otherwise create a new Document
owned by the uploader. -/
def document_upload_dedup (docs : List DocRec) (uploaderId : Nat) (fileHash : String) :
    UploadOutcome :=
  match findDuplicate docs fileHash with
  | some d => .existingDocument d.id
  | none => .createdNew uploaderId

/-! ## Chat scope dispatch (`app/views.py`, `chat_stream`) -/

/-- Python truthiness of an optional integer id taken from `request.data`:
absent (`None`) and `0` are falsy. -/
def pyTruthyOpt : Option Int → Bool
  | none => false
  | some v => v ≠ 0

/-- Scope a chat stream request resolves to. -/
inductive ScopeKind where
  | sessionScope (sid : Int)
  | documentScope (did : Int)
deriving DecidableEq, Repr

/-- Events emitted on the SSE stream (truncated to what scope dispatch can
produce before the first backend call). -/
inductive ChatEvent where
  | errorEvent (msg : String)
deriving DecidableEq, Repr

/-- Calls made to an embedding/completion backend. -/
inductive BackendCall where
  | embedCall (query : String)
deriving DecidableEq, Repr

/-- Scope dispatch of `chat_stream.generate_response`:
`if session_id: ... elif document_id: ... else: error`.  A truthy
`session_id` wins even when `document_id` is also supplied. -/
def resolveChatScope (sessionId documentId : Option Int) : Option ScopeKind :=
  if pyTruthyOpt sessionId then some (.sessionScope (sessionId.getD 0))
  else if pyTruthyOpt documentId then some (.documentScope (documentId.getD 0))
  else none

/-- Prefix of `chat_stream`'s generator up to (and including) the first
backend call: resolve the scope; on failure yield a single error event and
stop (no backend call); otherwise the next backend interaction is embedding
the last user question.  Returns (events so far, backend calls made, resolved
scope). -/
def chat_stream_start (sessionId documentId : Option Int) (lastQuestion : String) :
    List ChatEvent × List BackendCall × Option ScopeKind :=
  match resolveChatScope sessionId documentId with
  | none => ([.errorEvent ("Either session_id or document_id is required")], [], none)
  | some sk => ([], [.embedCall lastQuestion], some sk)

/-! ## Context assembly (`app/views.py`, `chat_stream` step 3) -/

/-- Candidate chunk row fed to context selection: content plus the
pre-computed `token_count` column (0 when never populated). -/
structure CandChunk where
  content : String
  tokenCount : Int
deriving DecidableEq, Repr

instance : Inhabited CandChunk := ⟨⟨"", 0⟩⟩

/-- Per-chunk token cost: `chunk.token_count if chunk.token_count > 0 else
token_service.estimate_tokens(chunk.content)`. -/
def chunkCost (c : CandChunk) : Int :=
  if 0 < c.tokenCount then c.tokenCount else (estimate_tokens c.content : Int)

/-- Token cost of the chunk separator `"\n\n---\n\n"` (7 characters, so 2). -/
def separatorTokens : Int :=
  (estimate_tokens ("\n\n---\n\n") : Int)

/-- One chat message of the request body. -/
structure Msg where
  role : String
  content : String
deriving DecidableEq, Repr

/-- Tokens reserved for all user-role messages of the conversation. -/
def userMessageTokens (msgs : List Msg) : Nat :=
  ((msgs.filter (fun m => m.role = "user")).map (fun m => estimate_tokens m.content)).sum

/-- The available context budget: `max_context_tokens - (base_tokens +
user_tokens + int(max_context_tokens * 0.2))`, the flat 20 % reserve
modelled as exact integer arithmetic. -/
def availableTokens (maxContextTokens : Int) (systemPromptBase : String) (msgs : List Msg) :
    Int :=
  maxContextTokens -
    ((estimate_tokens systemPromptBase : Int) + (userMessageTokens msgs : Int) +
      maxContextTokens * 2 / 10)

/-- The greedy selection loop over ranked candidates: stop at the first
candidate whose cost plus separator cost would push `used_tokens` past
`available`; otherwise select it and accumulate.  Returns the selected
chunks and the final `used_tokens`. -/
def selectChunks (available : Int) : List CandChunk → Int → List CandChunk × Int
  | [], used => ([], used)
  | c :: cs, used =>
    if available < used + chunkCost c + separatorTokens then ([], used)
    else
      let r := selectChunks available cs (used + chunkCost c + separatorTokens)
      (c :: r.1, r.2)

/-- Cost the loop accounts for a selected list: per-chunk cost plus one
separator cost per selected chunk. -/
def costWithSeps (l : List CandChunk) : Int :=
  (l.map chunkCost).sum + separatorTokens * l.length

/-! ## RecursiveChunkingService (`app/services/chunking_service.py`)

The service is recursive through `chunk ↔ _recursively_process_parts`, and
`_split_with_overlap` is a `while` loop; both are embedded with explicit
fuel returning `none` when the fuel runs out, so that non-termination of
the Python code is expressible as `∀ fuel, … = none`. -/

/-- One produced chunk: `{'content': …, 'metadata': {'length': …}}`. -/
structure Chunk where
  content : List Char
  length : Nat
deriving DecidableEq, Repr

/-- `RecursiveChunkingService._create_chunk`. -/
def mkChunk (content : List Char) : Chunk :=
  ⟨content, content.length⟩

/-- Locate the first occurrence of `sep` in `l`: `some (before, after)` with
`l = before ++ sep ++ after`, or `none` when `sep` does not occur. -/
def breakOnSep (sep : List Char) : List Char → Option (List Char × List Char)
  | [] => none
  | c :: cs =>
    if sep.isPrefixOf (c :: cs) then some ([], (c :: cs).drop sep.length)
    else (breakOnSep sep cs).map (fun r => (c :: r.1, r.2))

/-- Fuelled worker for Python `str.split(sep)`: split at each occurrence of
`sep` from the left, keeping empty pieces. -/
def splitGo (sep : List Char) : Nat → List Char → List (List Char)
  | 0, l => [l]
  | fuel + 1, l =>
    match breakOnSep sep l with
    | none => [l]
    | some r => r.1 :: splitGo sep fuel r.2

/-- Python `text.split(sep)` for a non-empty separator: each occurrence
consumes at least one character, so `length l` splits suffice. -/
def splitOnL (sep l : List Char) : List (List Char) :=
  splitGo sep l.length l

/-- The splitter loop of `chunk`: try `"\n\n"`, `"\n"`, `". "`, `" "` in
order and return the first that yields more than one part. -/
def trySplit (t : List Char) : Option (List Char × List (List Char)) :=
  let s1 := splitOnL ['\n', '\n'] t
  if 1 < s1.length then some (['\n', '\n'], s1) else
  let s2 := splitOnL ['\n'] t
  if 1 < s2.length then some (['\n'], s2) else
  let s3 := splitOnL ['.', ' '] t
  if 1 < s3.length then some (['.', ' '], s3) else
  let s4 := splitOnL [' '] t
  if 1 < s4.length then some ([' '], s4) else none

/-- `RecursiveChunkingService._split_with_overlap`, one fuel unit per loop
iteration.  State: current `start` position and `previous_end` carry-over.
The guard at the loop's end (`if start <= 0 or start >= length: break`) is
modelled exactly; it is the comment-announced "Prevent infinite loop"
safeguard. -/
def splitWContent (t : List Char) (chunkSize start : Nat) (prev : List Char) : List Char :=
  if prev ≠ [] ∧ 0 < start then
    prev ++ (t.drop start).take (min (start + chunkSize) t.length - start)
  else (t.drop start).take (min (start + chunkSize) t.length - start)

def splitW (t : List Char) (chunkSize overlap : Nat) : Nat → Nat → List Char →
    Option (List Chunk)
  | 0, _, _ => none
  | fuel + 1, start, prev =>
    if start < t.length then
      let content := splitWContent t chunkSize start prev
      let start' := min (start + chunkSize) t.length - overlap
      if start' = 0 ∨ t.length ≤ start' then some [mkChunk content]
      else (splitW t chunkSize overlap fuel start' (prevEnd overlap content)).map
        (fun r => mkChunk content :: r)
    else some []

/-- The seeding of a fresh buffer (and of the recursion argument for an
oversized part): `(previous_chunk_end + separator if previous_chunk_end
else "") + part`. -/
def seedChunk (prev sep part : List Char) : List Char :=
  (if prev.isEmpty then [] else prev ++ sep) ++ part

/-- The tentative buffer `current_chunk + (separator if current_chunk else
"") + part`. -/
def potentialChunk (cur sep part : List Char) : List Char :=
  cur ++ (if cur.isEmpty then [] else sep) ++ part

/-- The carry-over taken when a buffer is closed:
`current_chunk[-overlap:] if len(current_chunk) > overlap else ""` when the
buffer is non-empty, the old carry-over otherwise. -/
def closedPrev (overlap : Nat) (cur prev : List Char) : List Char :=
  if cur.isEmpty then prev else prevEnd overlap cur

/-- The carry-over taken from recursive sub-chunks (`if sub_chunks: … from
the last sub-chunk`). -/
def subsPrev (overlap : Nat) (subs : List Chunk) (prev : List Char) : List Char :=
  match subs.getLast? with
  | some lastSub => prevEnd overlap lastSub.content
  | none => prev

/-- `RecursiveChunkingService._recursively_process_parts`, parameterised by
the recursive re-entry into `chunk` (`chunkRec`, the one-fuel-smaller
instance).  State: parts still to process, `current_chunk`,
`previous_chunk_end`; chunks are emitted in the order the Python list
`chunks` receives them. -/
def processGo (chunkRec : List Char → Option (List Chunk)) (sep : List Char)
    (chunkSize overlap : Nat) :
    List (List Char) → List Char → List Char → Option (List Chunk)
  | [], cur, _ => some (if cur.isEmpty then [] else [mkChunk cur])
  | p :: ps, cur, prev =>
    if (pyStrip p).isEmpty then processGo chunkRec sep chunkSize overlap ps cur prev
    else if chunkSize < (pyStrip p).length then
      match chunkRec (seedChunk prev sep (pyStrip p)) with
      | none => none
      | some subs =>
        match processGo chunkRec sep chunkSize overlap ps cur (subsPrev overlap subs prev) with
        | none => none
        | some rest => some (subs ++ rest)
    else if chunkSize < (potentialChunk cur sep (pyStrip p)).length then
      match processGo chunkRec sep chunkSize overlap ps
          (seedChunk (closedPrev overlap cur prev) sep (pyStrip p))
          (closedPrev overlap cur prev) with
      | none => none
      | some rest => some ((if cur.isEmpty then [] else [mkChunk cur]) ++ rest)
    else processGo chunkRec sep chunkSize overlap ps (potentialChunk cur sep (pyStrip p)) prev

/-- `RecursiveChunkingService.chunk` with fuel: strip the input, clamp the
overlap to at most 50 % of `chunk_size` (`int(chunk_size * 0.5)` is exact
integer halving), return a single chunk for short text, otherwise process
the parts of the first successful splitter, falling back to fixed-width
slicing. -/
def chunkF : Nat → List Char → Nat → Nat → Option (List Chunk)
  | 0, _, _, _ => none
  | fuel + 1, text, chunkSize, overlap0 =>
    let t := pyStrip text
    let overlap := min overlap0 (chunkSize / 2)
    if t.length ≤ chunkSize then some [mkChunk t]
    else
      match trySplit t with
      | some sp => processGo (fun s => chunkF fuel s chunkSize overlap) sp.1 chunkSize
          overlap sp.2 [] []
      | none => splitW t chunkSize overlap fuel 0 []

/-! ## EmbeddingService retry loop
(`app/services/embedding_service.py`, `_generate_single_embedding_with_retry`) -/

/-- The error raised after exhausting all retries
(`RuntimeError(f"Failed to generate embedding after {max_retries} attempts:
{last_exception}")`): it carries the attempt count and the last underlying
error. -/
structure EmbeddingGenerationFailed (E : Type) where
  attempts : Nat
  lastError : Option E
deriving DecidableEq, Repr

/-- Observable trace of one retried embedding call: the outcome, the number
of calls actually issued to the provider, and the backoff sleeps performed
between consecutive attempts. -/
structure RetryTrace (E V : Type) where
  result : Except (EmbeddingGenerationFailed E) V
  calls : Nat
  sleeps : List ℚ
deriving Repr

/-- Worker for the `while attempts < self.max_retries` loop.  `remaining`
is `max_retries - attempts`.  `call k` is the k-th provider call (1-based);
`jitter k` is the value `random.uniform(0, 0.3 * base_delay)` drawn after
the k-th failed attempt.  After a failure the loop sleeps
`retry_delay * 2 ** (attempts - 1) + jitter` — but only when further
attempts remain. -/
def retryGo (call : Nat → Except E V) (jitter : Nat → ℚ) (maxRetries : Nat)
    (retryDelay : ℚ) : Nat → Nat → Option E → List ℚ → RetryTrace E V
  | 0, attempts, lastE, sleeps => ⟨.error ⟨maxRetries, lastE⟩, attempts, sleeps⟩
  | remaining + 1, attempts, _, sleeps =>
    match call (attempts + 1) with
    | .ok v => ⟨.ok v, attempts + 1, sleeps⟩
    | .error e =>
      let attempts' := attempts + 1
      let sleeps' :=
        if attempts' < maxRetries then
          sleeps ++ [retryDelay * 2 ^ (attempts' - 1) + jitter attempts']
        else sleeps
      retryGo call jitter maxRetries retryDelay remaining attempts' (some e) sleeps'

/-- `EmbeddingService._generate_single_embedding_with_retry` for one chunk. -/
def generate_single_embedding_with_retry (call : Nat → Except E V) (jitter : Nat → ℚ)
    (maxRetries : Nat) (retryDelay : ℚ) : RetryTrace E V :=
  retryGo call jitter maxRetries retryDelay maxRetries 0 none []

/-! ## EmbeddingService batching (`generate_embeddings`,
`_generate_embeddings_async`) -/

/-- Validity filter of `generate_embeddings`:
`chunk and chunk.strip() and len(chunk.strip()) >= 5`. -/
def validChunk (s : String) : Bool :=
  !s.isEmpty && !(pyStripS s).isEmpty && 5 ≤ (pyStripS s).length

/-- Adaptive concurrency of `_generate_embeddings_async`: near-serial for
large inputs, moderate for medium ones, the configured default (capped at
3) for small ones. -/
def effectiveConcurrency (concurrency total : Nat) : Nat :=
  if 200 < total then 1
  else if 100 < total then 2
  else min concurrency 3

/-- Fuelled worker grouping a list into consecutive batches of size `k`
(`chunks[i:i + effective_concurrency] for i in range(0, total, …)`). -/
def toBatchesGo (k : Nat) : Nat → List α → List (List α)
  | _, [] => []
  | 0, l => [l]
  | fuel + 1, l => l.take k :: toBatchesGo k fuel (l.drop k)

/-- Group a list into consecutive batches of size `k` (`k ≥ 1`). -/
def toBatches (k : Nat) (l : List α) : List (List α) :=
  toBatchesGo k l.length l

/-- One batch executed by `asyncio.gather`: the tasks complete in an
arbitrary `order` (a permutation of the indices), but gather hands the
results back indexed by task position. -/
def asyncGather [Inhabited β] (g : Nat → β) (n : Nat) (order : List Nat) : List β :=
  (List.range n).map (fun j => ((order.map (fun i => (i, g i))).lookup j).getD default)

/-- `EmbeddingService._generate_embeddings_async`: split the (already
filtered) chunks into batches of the effective concurrency, run each batch
concurrently (completion order `sched batchIdx batchSize`), extend the
result list batch by batch. -/
def generate_embeddings_async [Inhabited β] (embed : String → β)
    (sched : Nat → Nat → List Nat) (ec : Nat) (chunks : List String) : List β :=
  ((toBatches ec chunks).enum.map
    (fun b => asyncGather (fun i => embed (b.2.getD i "")) b.2.length (sched b.1 b.2.length))).flatten

/-- `EmbeddingService.generate_embeddings`: drop empty/short chunks, then
embed the remaining ones in batches. -/
def generate_embeddings [Inhabited β] (embed : String → β) (sched : Nat → Nat → List Nat)
    (concurrency : Nat) (chunks : List String) : List β :=
  if chunks.isEmpty then []
  else
    let valid := chunks.filter validChunk
    if valid.isEmpty then []
    else generate_embeddings_async embed sched (effectiveConcurrency concurrency valid.length) valid

/-! ## Document ingestion task (`app/tasks/document_tasks.py`,
`_process_document_internal`) -/

/-- Lifecycle status of a `Document`. -/
inductive DocStatus where
  | pending
  | processing
  | completed
  | failed
deriving DecidableEq, Repr

/-- The mutable Document fields the ingestion task touches. -/
structure Doc where
  status : DocStatus
  errorMessage : String
  numChunks : Nat
deriving DecidableEq, Repr

/-- The external collaborators of one ingestion run: provider health,
storage, text extraction, the chunker's output and the embedding engine's
outcome, plus the configured retry count (used in the error message). -/
structure IngestEnv where
  providerIsOllama : Bool
  ollamaHealthy : Bool
  filePath : String
  fileExists : Bool
  extract : Except String String
  chunker : String → List String
  maxRetries : Nat
  embed : List String → Except String (List (List ℚ))

/-- Python `s[:n]` on a Lean `String`. -/
def pyTakeS (n : Nat) (s : String) : String :=
  ⟨s.data.take n⟩

/-- The error-message cap of the task's exception handler:
`error_message[:10000] + "... (truncated)"` when longer than 10,000. -/
def truncateError (msg : String) : String :=
  if 10000 < msg.length then pyTakeS 10000 msg ++ ("... (truncated)") else msg

/-- Message raised when extraction yields implausibly little text. -/
def extractShortMsg (text : String) : String :=
  ("Failed to extract text from document. Possible reasons: scanned PDF (needs OCR), " ++
    "encrypted PDF, or corrupted file. Extracted only ") ++ toString text.length ++
    (" characters.")

/-- Message raised when every chunk is filtered out before embedding. -/
def noValidChunksMsg (totalChunks : Nat) : String :=
  ("No valid chunks found after processing document. Total chunks: ") ++
    toString totalChunks ++ (", but all were too short (< 5 chars).")

/-- The body of `_process_document_internal` up to the final Document
update: each `raise` becomes an `Except.error` carrying the exception
message; success returns the number of stored chunks. -/
def ingestRun (env : IngestEnv) : Except String Nat :=
  if env.providerIsOllama ∧ ¬env.ollamaHealthy then
    .error ("Ollama is not available or not responding. Please check if Ollama is running.")
  else if ¬env.fileExists then .error (("File not found: ") ++ env.filePath)
  else
    match env.extract with
    | .error e => .error (("Failed to extract text from document: ") ++ e)
    | .ok text =>
      if text.isEmpty ∨ (pyStripS text).length < 10 then .error (extractShortMsg text)
      else
        let chunkContents :=
          ((env.chunker text).map pyStripS).filter (fun c => !c.isEmpty && 5 ≤ c.length)
        if chunkContents.isEmpty then .error (noValidChunksMsg (env.chunker text).length)
        else
          match env.embed chunkContents with
          | .error e =>
            .error (("Failed to generate embeddings after ") ++ toString env.maxRetries ++
              (" retries: ") ++ e)
          | .ok embeddings =>
            let count := ((List.range chunkContents.length).filter
              (fun i => i < embeddings.length ∧ embeddings.getD i [] ≠ [])).length
            if count = 0 then .error ("No chunks were successfully embedded")
            else .ok count

/-- `_process_document_internal` end to end: on success the Document
becomes `completed` with `num_chunks = count`; any raised error is caught
by the task-boundary handler, which stores `status = failed` and the
truncated message, leaving `num_chunks` untouched. -/
def process_document_internal (doc : Doc) (env : IngestEnv) : Doc :=
  match ingestRun env with
  | .ok count => { doc with status := .completed, numChunks := count, errorMessage := "" }
  | .error msg => { doc with status := .failed, errorMessage := truncateError msg }

/-! ## Words of a text

`wordsOf` lists the whitespace-separated words of a character list, exactly
as Python's argument-less `str.split()` does: maximal runs of
non-whitespace characters, in order. -/

/-- The whitespace-separated words of a text (Python `text.split()`). -/
def wordsOf : List Char → List (List Char)
  | [] => []
  | c :: cs =>
    let rest := wordsOf cs
    if pyIsSpace c then rest
    else
      match cs with
      | [] => [[c]]
      | d :: _ =>
        if pyIsSpace d then [c] :: rest
        else
          match rest with
          | [] => [[c]]
          | w :: ws => (c :: w) :: ws

/-- Join parts with a separator between consecutive parts (the inverse of
`splitOnL`). -/
def joinSep (sep : List Char) : List (List Char) → List Char
  | [] => []
  | [p] => p
  | p :: ps => p ++ sep ++ joinSep sep ps

/-- Texts whose whitespace characters are only plain spaces and newlines
(no tabs, carriage returns, vertical tabs or form feeds). -/
def wsRestricted (l : List Char) : Prop :=
  ∀ c ∈ l, pyIsSpace c = true → c = ' ' ∨ c = '\n'

/-- Every word of the text has length at most `n`. -/
def wordsBounded (l : List Char) (n : Nat) : Prop :=
  ∀ w ∈ wordsOf l, w.length ≤ n

/-- A word is covered by a chunk list when some chunk's content contains it
as a whitespace-separated word. -/
def coveredBy (w : List Char) (chunks : List Chunk) : Prop :=
  ∃ ch ∈ chunks, w ∈ wordsOf ch.content

/-- Invariant carried by every piece of text the chunker manipulates in the
word-coverage proof: restricted whitespace, no sentence terminator, and all
words within the size bound. -/
def chunkTextInv (n : Nat) (l : List Char) : Prop :=
  wsRestricted l ∧ '.' ∉ l ∧ wordsBounded l n

instance (l : List Char) : Decidable (wsRestricted l) :=
  inferInstanceAs (Decidable (∀ c ∈ l, pyIsSpace c = true → c = ' ' ∨ c = '\n'))

instance (l : List Char) (n : Nat) : Decidable (wordsBounded l n) :=
  inferInstanceAs (Decidable (∀ w ∈ wordsOf l, w.length ≤ n))

/-! # Theorems -/

/-- C8: `estimate_tokens(text)` returns 0 when `text` is empty or
whitespace-only, and otherwise returns `ceil(len(text)/4)` (the natural
number `(len + 3) / 4`, pinned down by the two ceiling inequalities); the
result is a `Nat`, hence always non-negative.  `would_exceed_limit` returns
true iff `current_tokens + estimate_tokens(text_to_add) > max_tokens`. -/
theorem token_estimation_contract (t : String) (cur mx : Int) :
    ((pyStrip t.data).isEmpty = true → estimate_tokens t = 0) ∧
    ((pyStrip t.data).isEmpty = false →
      estimate_tokens t = (t.length + 3) / 4 ∧
      t.length ≤ 4 * ((t.length + 3) / 4) ∧ 4 * ((t.length + 3) / 4) < t.length + 4) ∧
    (would_exceed_limit cur t mx = true ↔ mx < cur + (estimate_tokens t : Int)) := by
  refine ⟨fun h => by simp [estimate_tokens, h], fun h => ?_, ?_⟩
  · have ht : t.data.isEmpty = false := by
      cases hd : t.data with
      | nil => rw [hd] at h; simp [pyStrip, List.rdropWhile] at h
      | cons a as => rfl
    refine ⟨by simp [estimate_tokens, ht, h], by omega, by omega⟩
  · simp [would_exceed_limit]

/-- C8 witness: the contract evaluated at `"abc"` with
`current_tokens = 0`, `max_tokens = 0`. -/
theorem token_estimation_contract_witness :
    estimate_tokens ("abc") = (("abc").length + 3) / 4 ∧
    (would_exceed_limit 0 ("abc") 0 = true ↔ (0 : Int) < 0 + (estimate_tokens ("abc") : Int)) :=
  ⟨((token_estimation_contract ("abc") 0 0).2.1 (by decide)).1,
    (token_estimation_contract ("abc") 0 0).2.2⟩

/-- C3: the upload de-duplication lookup in `document_upload` filters on
`file_hash` only.  With document 7 owned by user 1 carrying hash `"h"`, an
upload of the same content by user 2 answers "File already exists" with
user 1's document instead of creating a new Document for user 2 — although
`Document.Meta` declares `unique_together = [['user', 'file_hash']]` with
the comment "Ensure file_hash is unique per user (not globally)".  The
claim (per-user de-duplication) states the model's intent; the view's query
is the slip. -/
theorem dedup_ignores_owner :
    document_upload_dedup [⟨7, 1, "h"⟩] 2 ("h") = .existingDocument 7 ∧
    document_upload_dedup [⟨7, 1, "h"⟩] 2 ("h") ≠ .createdNew 2 := by
  constructor
  · rfl
  · decide

/-- C2 counterexample: a request carrying BOTH a truthy `session_id` (1)
and a truthy `document_id` (2) does not fail — it emits no error event,
resolves to the session scope, and an embedding backend call is made.  This
refutes the claim that supplying both fails with `InvalidChatScope` before
any backend call. -/
theorem chat_scope_both_cex :
    pyTruthyOpt (some 1) = true ∧ pyTruthyOpt (some 2) = true ∧
    (chat_stream_start (some 1) (some 2) ("q")).1 = [] ∧
    (chat_stream_start (some 1) (some 2) ("q")).2.1 = [.embedCall ("q")] ∧
    (chat_stream_start (some 1) (some 2) ("q")).2.2 = some (.sessionScope 1) := by
  decide

/-- C2 amended: a request supplying neither id fails with the
invalid-scope error event before any embedding or completion backend call
is made; a request with a truthy `session_id` proceeds session-scoped —
regardless of `document_id`, which it ignores. -/
theorem chat_scope_amended (sid did : Option Int) (q : String) :
    (pyTruthyOpt sid = false → pyTruthyOpt did = false →
      chat_stream_start sid did q =
        ([.errorEvent ("Either session_id or document_id is required")], [], none)) ∧
    (pyTruthyOpt sid = true →
      chat_stream_start sid did q = ([], [.embedCall q], some (.sessionScope (sid.getD 0)))) := by
  constructor
  · intro h1 h2
    simp [chat_stream_start, resolveChatScope, h1, h2]
  · intro h1
    simp [chat_stream_start, resolveChatScope, h1]

/-- C2 witness: the amended statement at the concrete requests
`(none, none)` and `(some 1, some 2)`. -/
theorem chat_scope_amended_witness :
    chat_stream_start none none ("q") =
      ([.errorEvent ("Either session_id or document_id is required")], [], none) ∧
    chat_stream_start (some 1) (some 2) ("q") = ([], [.embedCall ("q")], some (.sessionScope 1)) :=
  ⟨(chat_scope_amended none none ("q")).1 (by decide) (by decide),
    (chat_scope_amended (some 1) (some 2) ("q")).2 (by decide)⟩

theorem costWithSeps_nil : costWithSeps [] = 0 := by
  simp [costWithSeps]

theorem costWithSeps_cons (c : CandChunk) (l : List CandChunk) :
    costWithSeps (c :: l) = chunkCost c + separatorTokens + costWithSeps l := by
  simp [costWithSeps]
  ring

theorem selectChunks_spec (available : Int) :
    ∀ (l : List CandChunk) (used : Int), used ≤ available →
      (selectChunks available l used).2 = used + costWithSeps (selectChunks available l used).1 ∧
      (selectChunks available l used).2 ≤ available ∧
      (selectChunks available l used).1 = l.take (selectChunks available l used).1.length ∧
      ((selectChunks available l used).1.length < l.length →
        available < (selectChunks available l used).2 +
          chunkCost (l.getD (selectChunks available l used).1.length default) + separatorTokens) := by
  intro l
  induction l with
  | nil =>
    intro used h
    refine ⟨by simp [selectChunks, costWithSeps_nil], by simpa [selectChunks], by simp [selectChunks], ?_⟩
    intro hl
    simp [selectChunks] at hl
  | cons c cs ih =>
    intro used h
    by_cases hg : available < used + chunkCost c + separatorTokens
    · refine ⟨by simp [selectChunks, hg, costWithSeps_nil], by simpa [selectChunks, hg], by simp [selectChunks, hg], ?_⟩
      intro _
      simp only [selectChunks, if_pos hg, costWithSeps_nil]
      simpa using hg
    · have hused' : used + chunkCost c + separatorTokens ≤ available := le_of_not_lt hg
      obtain ⟨ih1, ih2, ih3, ih4⟩ := ih (used + chunkCost c + separatorTokens) hused'
      refine ⟨?_, ?_, ?_, ?_⟩
      · simp only [selectChunks, if_neg hg]
        rw [costWithSeps_cons, ih1]
        ring
      · simpa [selectChunks, hg] using ih2
      · simp only [selectChunks, if_neg hg, List.length_cons, List.take_succ_cons]
        exact congrArg (c :: ·) ih3
      · simp only [selectChunks, if_neg hg, List.length_cons]
        intro hl
        have := ih4 (by omega)
        simpa using this

/-- C4 amended: context assembly selects candidates greedily in ranked
order (the selected list is a prefix of the candidate list), stops at the
first candidate whose token cost (pre-computed `token_count` when positive,
otherwise estimated) plus the separator cost would push the running total
past the available budget `max_context_tokens - (base_tokens + user_tokens
+ 20 % reserve)`, and — provided that available budget is non-negative —
the accounted token cost of the selection (per-chunk cost plus one
separator cost per selected chunk, an upper bound on the cost of the
joined context string) never exceeds it.  The proviso is forced: when the
budget is negative the loop selects nothing and the accounted cost 0
already exceeds it (see the counterexample). -/
theorem context_budget (cands : List CandChunk) (maxCtx : Int) (sBase : String)
    (msgs : List Msg) (h : 0 ≤ availableTokens maxCtx sBase msgs) :
    costWithSeps (selectChunks (availableTokens maxCtx sBase msgs) cands 0).1 ≤
      availableTokens maxCtx sBase msgs ∧
    (selectChunks (availableTokens maxCtx sBase msgs) cands 0).1 =
      cands.take (selectChunks (availableTokens maxCtx sBase msgs) cands 0).1.length ∧
    ((selectChunks (availableTokens maxCtx sBase msgs) cands 0).1.length < cands.length →
      availableTokens maxCtx sBase msgs <
        costWithSeps (selectChunks (availableTokens maxCtx sBase msgs) cands 0).1 +
          chunkCost (cands.getD
            (selectChunks (availableTokens maxCtx sBase msgs) cands 0).1.length default) +
          separatorTokens) := by
  obtain ⟨h1, h2, h3, h4⟩ := selectChunks_spec (availableTokens maxCtx sBase msgs) cands 0 h
  rw [zero_add] at h1
  exact ⟨h1 ▸ h2, h3, fun hl => h1 ▸ h4 hl⟩

/-- C4 witness: with `max_context_tokens = 10`, empty system prompt and no
user messages the available budget is 8; of the two candidates (costs 1 and
12, plus separator cost 2 each) exactly the first is selected, within
budget, and the second would have exceeded it. -/
theorem context_budget_witness :
    costWithSeps (selectChunks (availableTokens 10 ("") []) [⟨"aaaa", 0⟩, ⟨"x", 12⟩] 0).1 ≤
      availableTokens 10 ("") [] ∧
    (selectChunks (availableTokens 10 ("") []) [⟨"aaaa", 0⟩, ⟨"x", 12⟩] 0).1 =
      ([⟨"aaaa", 0⟩, ⟨"x", 12⟩] : List CandChunk).take
        (selectChunks (availableTokens 10 ("") []) [⟨"aaaa", 0⟩, ⟨"x", 12⟩] 0).1.length :=
  ⟨(context_budget [⟨"aaaa", 0⟩, ⟨"x", 12⟩] 10 ("") [] (by decide)).1,
    (context_budget [⟨"aaaa", 0⟩, ⟨"x", 12⟩] 10 ("") [] (by decide)).2.1⟩

/-- C4 counterexample: with `max_context_tokens = 10`, an empty system
prompt and a single 60-character user message, the available budget
`10 - (0 + 15 + 10*2/10)` is negative (-7) — a reachable configuration:
nothing stops a request's messages from outweighing the context window.
The greedy loop then selects nothing, and the accounted cost 0 of the
selection exceeds the available budget, so the original claim, which
asserts the bound for every candidate list and budget with no
non-negativity proviso, is false here. -/
theorem context_budget_cex :
    availableTokens 10 ("")
        [⟨"user", "aaaaaaaaaaaaaaaaaaaaaaaaaaaaaaaaaaaaaaaaaaaaaaaaaaaaaaaaaaaa"⟩] = -7 ∧
    (selectChunks (availableTokens 10 ("")
        [⟨"user", "aaaaaaaaaaaaaaaaaaaaaaaaaaaaaaaaaaaaaaaaaaaaaaaaaaaaaaaaaaaa"⟩])
        [⟨"aaaa", 0⟩] 0).1 = [] ∧
    ¬ costWithSeps (selectChunks (availableTokens 10 ("")
        [⟨"user", "aaaaaaaaaaaaaaaaaaaaaaaaaaaaaaaaaaaaaaaaaaaaaaaaaaaaaaaaaaaa"⟩])
        [⟨"aaaa", 0⟩] 0).1 ≤
      availableTokens 10 ("")
        [⟨"user", "aaaaaaaaaaaaaaaaaaaaaaaaaaaaaaaaaaaaaaaaaaaaaaaaaaaaaaaaaaaa"⟩] := by
  refine ⟨by decide, by decide, by decide⟩

theorem retryGo_all_fail (call : Nat → Except E V) (jitter : Nat → ℚ) (maxRetries : Nat)
    (retryDelay : ℚ) (hfail : ∀ k, ∃ e, call k = .error e) :
    ∀ (remaining attempts : Nat) (lastE : Option E) (sleeps : List ℚ),
      attempts + remaining = maxRetries → 1 ≤ remaining →
      (retryGo call jitter maxRetries retryDelay remaining attempts lastE sleeps).calls =
        maxRetries ∧
      (∃ e, call maxRetries = .error e ∧
        (retryGo call jitter maxRetries retryDelay remaining attempts lastE sleeps).result =
          .error ⟨maxRetries, some e⟩) ∧
      (retryGo call jitter maxRetries retryDelay remaining attempts lastE sleeps).sleeps =
        sleeps ++ (List.range (remaining - 1)).map
          (fun j => retryDelay * 2 ^ (attempts + j) + jitter (attempts + j + 1)) := by
  intro remaining
  induction remaining with
  | zero => intro _ _ _ _ hr; omega
  | succ r ih =>
    intro attempts lastE sleeps hsum _
    obtain ⟨e, he⟩ := hfail (attempts + 1)
    cases r with
    | zero =>
      have hatt : attempts + 1 = maxRetries := by omega
      have hnot : ¬ (attempts + 1 < maxRetries) := by omega
      have he' : call maxRetries = Except.error e := hatt ▸ he
      refine ⟨?_, ⟨e, he', ?_⟩, ?_⟩
      · simp [retryGo, he, he', hnot, hatt]
      · simp [retryGo, he, he', hnot, hatt]
      · simp [retryGo, he, he', hnot, hatt]
    | succ r' =>
      have hlt : attempts + 1 < maxRetries := by omega
      have step : retryGo call jitter maxRetries retryDelay (r' + 1 + 1) attempts lastE sleeps =
          retryGo call jitter maxRetries retryDelay (r' + 1) (attempts + 1) (some e)
            (sleeps ++ [retryDelay * 2 ^ (attempts + 1 - 1) + jitter (attempts + 1)]) := by
        simp [retryGo, he, hlt]
      obtain ⟨ih1, ih2, ih3⟩ := ih (attempts + 1) (some e)
        (sleeps ++ [retryDelay * 2 ^ (attempts + 1 - 1) + jitter (attempts + 1)])
        (by omega) (by omega)
      refine ⟨step ▸ ih1, ?_, ?_⟩
      · rw [step]; exact ih2
      · rw [step, ih3]
        have hr : List.range (r' + 1 + 1 - 1) = List.range (r' + 1) := rfl
        rw [hr, List.range_succ_eq_map]
        simp only [List.map_cons, List.map_map, List.append_assoc, List.singleton_append]
        congr 1
        congr 1
        refine List.map_congr_left (fun a _ => ?_)
        simp only [Function.comp_apply, Nat.succ_eq_add_one]
        have e1 : attempts + (a + 1) = attempts + 1 + a := by omega
        rw [e1]

/-- C5: when every provider call for a chunk fails, the retry wrapper makes
exactly `max_retries` calls, sleeps between consecutive attempts for
`retry_delay * 2^(attempt-1)` plus the drawn jitter — which, as long as the
jitter respects its `random.uniform(0, 0.3 * base_delay)` range, keeps each
sleep within `[base_delay, 1.3 * base_delay]` — and then raises the
generation-failure error carrying the last underlying provider error. -/
theorem retry_exhaustion (call : Nat → Except E V) (jitter : Nat → ℚ) (maxRetries : Nat)
    (retryDelay : ℚ) (hmax : 1 ≤ maxRetries) (hfail : ∀ k, ∃ e, call k = .error e)
    (hjit : ∀ k, 0 ≤ jitter k ∧ jitter k ≤ 3 / 10 * (retryDelay * 2 ^ (k - 1))) :
    (generate_single_embedding_with_retry call jitter maxRetries retryDelay).calls =
      maxRetries ∧
    (∃ e, call maxRetries = .error e ∧
      (generate_single_embedding_with_retry call jitter maxRetries retryDelay).result =
        .error ⟨maxRetries, some e⟩) ∧
    (generate_single_embedding_with_retry call jitter maxRetries retryDelay).sleeps.length =
      maxRetries - 1 ∧
    (∀ i, i < maxRetries - 1 →
      (generate_single_embedding_with_retry call jitter maxRetries retryDelay).sleeps.getD i 0 =
        retryDelay * 2 ^ i + jitter (i + 1) ∧
      retryDelay * 2 ^ i ≤
        (generate_single_embedding_with_retry call jitter maxRetries retryDelay).sleeps.getD i 0 ∧
      (generate_single_embedding_with_retry call jitter maxRetries retryDelay).sleeps.getD i 0 ≤
        13 / 10 * (retryDelay * 2 ^ i)) := by
  obtain ⟨h1, h2, h3⟩ := retryGo_all_fail call jitter maxRetries retryDelay hfail
    maxRetries 0 none [] (by omega) hmax
  rw [generate_single_embedding_with_retry]
  refine ⟨h1, h2, ?_, ?_⟩
  · rw [h3]; simp
  · intro i hi
    have hget : (retryGo call jitter maxRetries retryDelay maxRetries 0 none []).sleeps.getD i 0 =
        retryDelay * 2 ^ i + jitter (i + 1) := by
      rw [h3]
      simp only [List.nil_append]
      rw [List.getD_eq_getElem _ _ (by simpa using hi)]
      simp
    refine ⟨hget, ?_, ?_⟩
    · rw [hget]
      have := (hjit (i + 1)).1
      linarith
    · rw [hget]
      have h := (hjit (i + 1)).2
      have hi' : i + 1 - 1 = i := by omega
      rw [hi'] at h
      linarith

/-- C5 witness: a provider failing every call with error `"boom"`, zero
jitter, `max_retries = 3`, `retry_delay = 2`: exactly 3 calls, 2 sleeps,
the first sleep equal to `2 * 2^0 + 0`. -/
theorem retry_exhaustion_witness :
    (generate_single_embedding_with_retry
      (fun _ => (Except.error ("boom") : Except String (List ℚ))) (fun _ => 0) 3 2).calls = 3 ∧
    (generate_single_embedding_with_retry
      (fun _ => (Except.error ("boom") : Except String (List ℚ))) (fun _ => 0) 3 2).sleeps.length
      = 2 :=
  ⟨(retry_exhaustion _ _ 3 2 (by norm_num) (fun k => ⟨"boom", rfl⟩)
      (fun k => ⟨le_refl 0, by positivity⟩)).1,
    (retry_exhaustion _ _ 3 2 (by norm_num) (fun k => ⟨"boom", rfl⟩)
      (fun k => ⟨le_refl 0, by positivity⟩)).2.2.1⟩

theorem toBatchesGo_flatten {α : Type} (k : Nat) (hk : 1 ≤ k) :
    ∀ (fuel : Nat) (l : List α), l.length ≤ fuel → (toBatchesGo k fuel l).flatten = l := by
  intro fuel
  induction fuel with
  | zero =>
    intro l hl
    have : l = [] := List.eq_nil_of_length_eq_zero (by omega)
    subst this
    simp [toBatchesGo]
  | succ f ih =>
    intro l hl
    cases l with
    | nil => simp [toBatchesGo]
    | cons a as =>
      have hstep : toBatchesGo k (f + 1) (a :: as) =
          (a :: as).take k :: toBatchesGo k f ((a :: as).drop k) := rfl
      have hlen : ((a :: as).drop k).length ≤ f := by
        simp only [List.length_cons] at hl
        simp only [List.length_drop, List.length_cons]
        omega
      rw [hstep, List.flatten_cons, ih _ hlen]
      exact List.take_append_drop k (a :: as)

theorem toBatches_flatten {α : Type} (k : Nat) (hk : 1 ≤ k) (l : List α) :
    (toBatches k l).flatten = l :=
  toBatchesGo_flatten k hk l.length l le_rfl

theorem lookup_map_self {β : Type} (g : Nat → β) :
    ∀ (order : List Nat) (j : Nat), j ∈ order → order.Nodup →
      ((order.map (fun i => (i, g i))).lookup j) = some (g j) := by
  intro order
  induction order with
  | nil => intro j hj _; simp at hj
  | cons a as ih =>
    intro j hj hnd
    by_cases hja : a = j
    · subst hja
      simp [List.lookup]
    · have hne : j ≠ a := fun hh => hja hh.symm
      have hmem : j ∈ as := by
        rcases List.mem_cons.mp hj with h | h
        · exact absurd h.symm hja
        · exact h
      simp only [List.map_cons, List.lookup, beq_eq_false_iff_ne.mpr hne]
      exact ih j hmem (List.Nodup.of_cons hnd)

theorem asyncGather_eq {β : Type} [Inhabited β] (g : Nat → β) (n : Nat) (order : List Nat)
    (h : order.Perm (List.range n)) :
    asyncGather g n order = (List.range n).map g := by
  unfold asyncGather
  refine List.map_congr_left (fun j hj => ?_)
  have hmem : j ∈ order := h.mem_iff.mpr (by simpa using hj)
  have hnd : order.Nodup := h.nodup_iff.mpr (List.nodup_range n)
  rw [lookup_map_self g order j hmem hnd]
  rfl

theorem range_map_getD {β : Type} (f : String → β) :
    ∀ l : List String, (List.range l.length).map (fun i => f (l.getD i "")) = l.map f := by
  intro l
  induction l with
  | nil => simp
  | cons a as ih =>
    rw [List.length_cons, List.range_succ_eq_map, List.map_cons, List.map_map, List.map_cons]
    refine congrArg₂ _ rfl ?_
    rw [← ih]
    refine List.map_congr_left (fun i _ => ?_)
    simp [List.getD_cons_succ]

theorem generate_embeddings_async_eq {β : Type} [Inhabited β] (embed : String → β)
    (sched : Nat → Nat → List Nat) (ec : Nat) (hec : 1 ≤ ec) (chunks : List String)
    (hsched : ∀ b n, (sched b n).Perm (List.range n)) :
    generate_embeddings_async embed sched ec chunks = chunks.map embed := by
  unfold generate_embeddings_async
  have hbatch : ∀ b : Nat × List String,
      asyncGather (fun i => embed (b.2.getD i "")) b.2.length (sched b.1 b.2.length) =
        b.2.map embed := by
    intro b
    rw [asyncGather_eq _ _ _ (hsched b.1 b.2.length), range_map_getD]
  rw [List.map_congr_left (fun b _ => hbatch b)]
  have h2 : (toBatches ec chunks).enum.map (fun b => b.2.map embed) =
      ((toBatches ec chunks).enum.map Prod.snd).map (List.map embed) := by
    rw [List.map_map]
    rfl
  rw [h2, List.enum_map_snd, ← List.map_flatten, toBatches_flatten ec hec]

theorem effectiveConcurrency_pos (concurrency total : Nat) (hc : 1 ≤ concurrency) :
    1 ≤ effectiveConcurrency concurrency total := by
  unfold effectiveConcurrency
  split
  · omega
  · split
    · omega
    · omega

/-- C6: `generate_embeddings` returns exactly one embedding per chunk that
passes the validity filter (non-empty after stripping and stripped length
at least 5), in the same order as those chunks appear in the input, for
EVERY completion order the per-batch concurrent execution may exhibit
(every permutation `sched`); filtered-out chunks contribute no entry, so
the output aligns positionally with the filtered list. -/
theorem embedding_order_and_filter {β : Type} [Inhabited β] (embed : String → β)
    (sched : Nat → Nat → List Nat) (concurrency : Nat) (chunks : List String)
    (hc : 1 ≤ concurrency) (hsched : ∀ b n, (sched b n).Perm (List.range n)) :
    generate_embeddings embed sched concurrency chunks =
      (chunks.filter validChunk).map embed := by
  unfold generate_embeddings
  by_cases h1 : chunks.isEmpty
  · have : chunks = [] := by
      cases chunks
      · rfl
      · simp at h1
    subst this
    simp
  · rw [if_neg h1]
    by_cases h2 : (chunks.filter validChunk).isEmpty
    · have : chunks.filter validChunk = [] := by
        cases hx : chunks.filter validChunk
        · rfl
        · rw [hx] at h2; simp at h2
      simp only [this]
      simp
    · rw [if_neg h2]
      exact generate_embeddings_async_eq embed sched _
        (effectiveConcurrency_pos _ _ hc) _ hsched

/-- C6 witness: the spec's own filter scenario
`["", "  ", "ab", "valid text chunk"]` with identity-order schedules and
default concurrency 2: exactly the last chunk survives the filter and is
embedded. -/
theorem embedding_order_and_filter_witness :
    generate_embeddings String.length (fun _ n => List.range n) 2
      ["", "  ", "ab", "valid text chunk"] =
      ((["", "  ", "ab", "valid text chunk"] : List String).filter validChunk).map
        String.length :=
  embedding_order_and_filter String.length (fun _ n => List.range n) 2
    ["", "  ", "ab", "valid text chunk"] (by norm_num) (fun b n => List.Perm.refl _)

theorem ne_empty_of_length_pos {s : String} (h : 0 < s.length) : s ≠ "" := by
  intro he
  rw [he] at h
  exact absurd h (by decide)

theorem truncateError_length_le (msg : String) : (truncateError msg).length ≤ 10015 := by
  unfold truncateError
  split
  · rw [String.length_append]
    have h1 : (pyTakeS 10000 msg).length ≤ 10000 := by
      show (pyTakeS 10000 msg).data.length ≤ 10000
      simp [pyTakeS]
    have h2 : ("... (truncated)").length = 15 := by decide
    omega
  · omega

theorem truncateError_ne_empty {msg : String} (h : msg ≠ "") : truncateError msg ≠ "" := by
  unfold truncateError
  split
  · apply ne_empty_of_length_pos
    rw [String.length_append]
    have : ("... (truncated)").length = 15 := by decide
    omega
  · exact h

theorem ingest_error_ne_empty (env : IngestEnv) (msg : String)
    (hfail : ingestRun env = .error msg) : msg ≠ "" := by
  simp only [ingestRun] at hfail
  split at hfail
  · rw [Except.error.injEq] at hfail
    subst hfail
    decide
  · split at hfail
    · rw [Except.error.injEq] at hfail
      subst hfail
      apply ne_empty_of_length_pos
      rw [String.length_append]
      have : ("File not found: ").length = 16 := by decide
      omega
    · split at hfail
      · rw [Except.error.injEq] at hfail
        subst hfail
        apply ne_empty_of_length_pos
        rw [String.length_append]
        have : ("Failed to extract text from document: ").length = 38 := by decide
        omega
      · split at hfail
        · rw [Except.error.injEq] at hfail
          subst hfail
          apply ne_empty_of_length_pos
          unfold extractShortMsg
          rw [String.length_append]
          have : (" characters.").length = 12 := by decide
          omega
        · split at hfail
          · rw [Except.error.injEq] at hfail
            subst hfail
            apply ne_empty_of_length_pos
            unfold noValidChunksMsg
            rw [String.length_append, String.length_append]
            have h2 : 0 < ("No valid chunks found after processing document. Total chunks: ").length := by
              decide
            omega
          · split at hfail
            · rw [Except.error.injEq] at hfail
              subst hfail
              apply ne_empty_of_length_pos
              rw [String.length_append, String.length_append]
              have : (" retries: ").length = 10 := by decide
              omega
            · split at hfail
              · rw [Except.error.injEq] at hfail
                subst hfail
                decide
              · exact absurd hfail (by simp)

/-- C9: whenever document ingestion fails after starting — extraction
error, extracted text shorter than 10 characters after stripping, no valid
chunks, or embedding failure (any `Except.error` outcome of the run) — the
Document is left with `status = failed` (in particular not `processing`),
a non-empty `error_message` truncated to at most 10,015 characters
(10,000 plus the `"... (truncated)"` marker), and its `num_chunks` stays
0. -/
theorem ingestion_failure_contract (doc : Doc) (env : IngestEnv) (msg : String)
    (hnum : doc.numChunks = 0) (hfail : ingestRun env = .error msg) :
    (process_document_internal doc env).status = .failed ∧
    (process_document_internal doc env).status ≠ .processing ∧
    (process_document_internal doc env).errorMessage ≠ "" ∧
    (process_document_internal doc env).errorMessage.length ≤ 10015 ∧
    (process_document_internal doc env).numChunks = 0 := by
  have hne : msg ≠ "" := ingest_error_ne_empty env msg hfail
  unfold process_document_internal
  rw [hfail]
  exact ⟨rfl, by simp, truncateError_ne_empty hne, truncateError_length_le msg,
    by simpa using hnum⟩

/-- C9 witness: a pending Document whose file extracts to the 5-character
text `"abcde"` ends in `status = failed` with a non-empty error message and
`num_chunks = 0`. -/
theorem ingestion_failure_contract_witness :
    (process_document_internal ⟨.pending, "", 0⟩
      ⟨true, true, ("doc.txt"), true, .ok ("abcde"), fun _ => [], 3, fun _ => .ok []⟩).status =
      .failed ∧
    (process_document_internal ⟨.pending, "", 0⟩
      ⟨true, true, ("doc.txt"), true, .ok ("abcde"), fun _ => [], 3, fun _ => .ok []⟩).errorMessage
      ≠ "" ∧
    (process_document_internal ⟨.pending, "", 0⟩
      ⟨true, true, ("doc.txt"), true, .ok ("abcde"), fun _ => [], 3, fun _ => .ok []⟩).numChunks
      = 0 := by
  have h := ingestion_failure_contract ⟨.pending, "", 0⟩
    ⟨true, true, ("doc.txt"), true, .ok ("abcde"), fun _ => [], 3, fun _ => .ok []⟩
    (extractShortMsg ("abcde")) rfl (by rfl)
  exact ⟨h.1, h.2.2.1, h.2.2.2.2⟩

theorem splitW_cycle :
    ∀ fuel, splitW (("abcdefghijkl").toList) 10 2 fuel 10 (['k', 'l']) = none := by
  intro fuel
  induction fuel with
  | zero => rfl
  | succ f ih =>
    have hstep : splitW (("abcdefghijkl").toList) 10 2 (f + 1) 10 (['k', 'l']) =
        (splitW (("abcdefghijkl").toList) 10 2 f 10 (['k', 'l'])).map
          (fun r => mkChunk (("klkl").toList) :: r) := rfl
    rw [hstep, ih]
    rfl

theorem splitW_from8 :
    ∀ fuel, splitW (("abcdefghijkl").toList) 10 2 fuel 8 (['i', 'j']) = none := by
  intro fuel
  cases fuel with
  | zero => rfl
  | succ f =>
    have hstep : splitW (("abcdefghijkl").toList) 10 2 (f + 1) 8 (['i', 'j']) =
        (splitW (("abcdefghijkl").toList) 10 2 f 10 (['k', 'l'])).map
          (fun r => mkChunk (("ijijkl").toList) :: r) := rfl
    rw [hstep, splitW_cycle f]
    rfl

theorem splitW_from0 :
    ∀ fuel, splitW (("abcdefghijkl").toList) 10 2 fuel 0 [] = none := by
  intro fuel
  cases fuel with
  | zero => rfl
  | succ f =>
    have hstep : splitW (("abcdefghijkl").toList) 10 2 (f + 1) 0 [] =
        (splitW (("abcdefghijkl").toList) 10 2 f 8 (['i', 'j'])).map
          (fun r => mkChunk (("abcdefghij").toList) :: r) := rfl
    rw [hstep, splitW_from8 f]
    rfl

/-- C10: `chunk` does NOT terminate on every input with `chunk_size ≥ 1`.
On the single 12-character token `"abcdefghijkl"` with `chunk_size = 10`,
`overlap = 2` the fixed-width fallback loop reaches the window end with
`start = chunk_end - overlap = 12 - 2 = 10`, which is neither `≤ 0` nor
`≥ length`, and the state `(start = 10, previous_end = "kl")` reproduces
itself forever: the "Prevent infinite loop" guard never fires.  In the fuel
model, no amount of fuel suffices.  The same happens for every input that
reaches `_split_with_overlap` with `overlap ≥ 1` (e.g. a 2,000-character
unbroken token under the defaults `chunk_size = 1500`, `overlap = 200`). -/
theorem chunk_diverges (fuel : Nat) :
    chunkF fuel (("abcdefghijkl").toList) 10 2 = none := by
  cases fuel with
  | zero => rfl
  | succ f =>
    have hstep : chunkF (f + 1) (("abcdefghijkl").toList) 10 2 =
        splitW (("abcdefghijkl").toList) 10 2 f 0 [] := rfl
    rw [hstep, splitW_from0 f]

/-- C7 counterexample: the chunk-size bound `chunk_size + overlap` fails on
the code in two ways.  (1) With `chunk_size = 10`, `overlap = 5`,
re-inserting the separator when seeding the next buffer
(`previous_end + separator + part`) produces the 16-character chunk
`"cdefg helloworld"`, exceeding `10 + 5`.  (2) With `overlap = 0` the
Python slice `current_chunk[-0:]` is the WHOLE buffer, so with
`chunk_size = 4` the carry-over duplicates entire chunks and lengths grow
unboundedly (9 > 4 + 0, then 14). -/
theorem chunk_size_bound_cex :
    (chunkF 10 (("abcdefg helloworld").toList) 10 5 =
        some [mkChunk (("abcdefg").toList), mkChunk (("cdefg helloworld").toList)] ∧
      (("cdefg helloworld").toList).length = 16) ∧
    (chunkF 10 (("abcd efgh ijkl").toList) 4 0 =
        some [mkChunk (("abcd").toList), mkChunk (("abcd efgh").toList),
          mkChunk (("abcd efgh ijkl").toList)] ∧
      (("abcd efgh").toList).length = 9) :=
  ⟨⟨rfl, rfl⟩, ⟨rfl, rfl⟩⟩

theorem prevEnd_length_le {ov : Nat} (hov : 1 ≤ ov) (l : List Char) :
    (prevEnd ov l).length ≤ ov := by
  unfold prevEnd pySuffix
  split
  · rw [if_neg (by omega)]
    simp only [List.length_drop]
    omega
  · simp

theorem splitWContent_length_le {ov : Nat} (t : List Char) (cs start : Nat)
    (prev : List Char) (hprev : prev.length ≤ ov) :
    (splitWContent t cs start prev).length ≤ ov + cs := by
  unfold splitWContent
  have hc0 : ((t.drop start).take (min (start + cs) t.length - start)).length ≤ cs := by
    simp only [List.length_take, List.length_drop]
    omega
  split
  · rw [List.length_append]; omega
  · omega

theorem splitW_bound (t : List Char) (cs ov : Nat) (hov : 1 ≤ ov) :
    ∀ (fuel start : Nat) (prev : List Char) (out : List Chunk), prev.length ≤ ov →
      splitW t cs ov fuel start prev = some out →
      ∀ ch ∈ out, ch.content.length ≤ cs + ov := by
  intro fuel
  induction fuel with
  | zero => intro start prev out _ h; exact absurd h (by simp [splitW])
  | succ f ih =>
    intro start prev out hprev h
    rw [splitW] at h
    by_cases hs : start < t.length
    · rw [if_pos hs] at h
      have hclen : (splitWContent t cs start prev).length ≤ ov + cs :=
        splitWContent_length_le t cs start prev hprev
      by_cases hb : min (start + cs) t.length - ov = 0 ∨ t.length ≤ min (start + cs) t.length - ov
      · rw [if_pos hb] at h
        injection h with h2
        subst h2
        intro ch hch
        rcases List.mem_singleton.mp hch with rfl
        show (splitWContent t cs start prev).length ≤ cs + ov
        omega
      · rw [if_neg hb] at h
        cases hrec : splitW t cs ov f (min (start + cs) t.length - ov)
            (prevEnd ov (splitWContent t cs start prev)) with
        | none => rw [hrec, Option.map_none'] at h; exact Option.noConfusion h
        | some r =>
          rw [hrec] at h
          simp only [Option.map_some', Option.some.injEq] at h
          subst h
          intro ch hch
          rcases List.mem_cons.mp hch with rfl | hmem
          · show (splitWContent t cs start prev).length ≤ cs + ov
            omega
          · exact ih _ _ r (prevEnd_length_le hov _) hrec ch hmem
    · rw [if_neg hs] at h
      injection h with h2
      subst h2
      intro ch hch
      exact absurd hch (List.not_mem_nil ch)

theorem trySplit_sep_short (t : List Char) (sep : List Char) (parts : List (List Char))
    (h : trySplit t = some (sep, parts)) : sep.length ≤ 2 := by
  simp only [trySplit] at h
  split at h
  · injection h with h'; cases h'; decide
  · split at h
    · injection h with h'; cases h'; decide
    · split at h
      · injection h with h'; cases h'; decide
      · split at h
        · injection h with h'; cases h'; decide
        · exact absurd h (by simp)

theorem closedPrev_length_le {ov : Nat} (hov : 1 ≤ ov) (cur prev : List Char)
    (hprev : prev.length ≤ ov) : (closedPrev ov cur prev).length ≤ ov := by
  unfold closedPrev
  split
  · exact hprev
  · exact prevEnd_length_le hov cur

theorem subsPrev_length_le {ov : Nat} (hov : 1 ≤ ov) (subs : List Chunk) (prev : List Char)
    (hprev : prev.length ≤ ov) : (subsPrev ov subs prev).length ≤ ov := by
  unfold subsPrev
  cases subs.getLast? with
  | none => exact hprev
  | some lastSub => exact prevEnd_length_le hov lastSub.content

theorem seedChunk_length_le {ov cs : Nat} (prev sep part : List Char)
    (hprev : prev.length ≤ ov) (hpart : part.length ≤ cs) :
    (seedChunk prev sep part).length ≤ ov + sep.length + cs := by
  unfold seedChunk
  rw [List.length_append]
  have : (if prev.isEmpty then ([] : List Char) else prev ++ sep).length ≤ ov + sep.length := by
    split
    · simp
    · rw [List.length_append]; omega
  omega

theorem processGo_bound (chunkRec : List Char → Option (List Chunk)) (sep : List Char)
    (cs ov : Nat) (hov : 1 ≤ ov) (hsep : sep.length ≤ 2)
    (hrec : ∀ s out', chunkRec s = some out' → ∀ ch ∈ out', ch.content.length ≤ cs + ov + 2) :
    ∀ (ps : List (List Char)) (cur prev : List Char) (out : List Chunk),
      (cur = [] ∨ cur.length ≤ cs + ov + sep.length) → prev.length ≤ ov →
      processGo chunkRec sep cs ov ps cur prev = some out →
      ∀ ch ∈ out, ch.content.length ≤ cs + ov + 2 := by
  intro ps
  induction ps with
  | nil =>
    intro cur prev out hcur hprev h
    rw [processGo] at h
    injection h with h2
    subst h2
    intro ch hch
    by_cases hce : cur.isEmpty
    · rw [if_pos hce] at hch
      exact absurd hch (List.not_mem_nil ch)
    · rw [if_neg hce] at hch
      rcases List.mem_singleton.mp hch with rfl
      show cur.length ≤ cs + ov + 2
      rcases hcur with h0 | hlen
      · rw [h0] at hce; exact absurd rfl hce
      · omega
  | cons p ps ih =>
    intro cur prev out hcur hprev h
    rw [processGo] at h
    by_cases hpe : (pyStrip p).isEmpty
    · rw [if_pos hpe] at h
      exact ih cur prev out hcur hprev h
    · rw [if_neg hpe] at h
      by_cases hbig : cs < (pyStrip p).length
      · rw [if_pos hbig] at h
        cases hsub : chunkRec (seedChunk prev sep (pyStrip p)) with
        | none => rw [hsub] at h; exact Option.noConfusion h
        | some subs =>
          rw [hsub] at h
          dsimp only at h
          cases hrest : processGo chunkRec sep cs ov ps cur (subsPrev ov subs prev) with
          | none => rw [hrest] at h; exact Option.noConfusion h
          | some rest =>
            rw [hrest] at h
            injection h with h2
            subst h2
            intro ch hch
            rcases List.mem_append.mp hch with hm | hm
            · exact hrec _ subs hsub ch hm
            · exact ih cur _ rest hcur (subsPrev_length_le hov subs prev hprev) hrest ch hm
      · rw [if_neg hbig] at h
        by_cases hpot : cs < (potentialChunk cur sep (pyStrip p)).length
        · rw [if_pos hpot] at h
          have hprev' : (closedPrev ov cur prev).length ≤ ov :=
            closedPrev_length_le hov cur prev hprev
          have hcur' : seedChunk (closedPrev ov cur prev) sep (pyStrip p) = [] ∨
              (seedChunk (closedPrev ov cur prev) sep (pyStrip p)).length ≤
                cs + ov + sep.length := by
            right
            have := @seedChunk_length_le ov cs (closedPrev ov cur prev) sep
              (pyStrip p) hprev' (by omega)
            omega
          cases hrest : processGo chunkRec sep cs ov ps
              (seedChunk (closedPrev ov cur prev) sep (pyStrip p)) (closedPrev ov cur prev) with
          | none => rw [hrest] at h; exact Option.noConfusion h
          | some rest =>
            rw [hrest] at h
            dsimp only at h
            injection h with h2
            subst h2
            intro ch hch
            rcases List.mem_append.mp hch with hm | hm
            · by_cases hce : cur.isEmpty
              · rw [if_pos hce] at hm
                exact absurd hm (List.not_mem_nil ch)
              · rw [if_neg hce] at hm
                rcases List.mem_singleton.mp hm with rfl
                show cur.length ≤ cs + ov + 2
                rcases hcur with h0 | hlen
                · rw [h0] at hce; exact absurd rfl hce
                · omega
            · exact ih _ _ rest hcur' hprev' hrest ch hm
        · rw [if_neg hpot] at h
          refine ih _ prev out (Or.inr ?_) hprev h
          have := le_of_not_lt hpot
          omega

theorem chunkF_bound :
    ∀ (fuel : Nat) (t : List Char) (cs ov : Nat) (out : List Chunk),
      1 ≤ min ov (cs / 2) → chunkF fuel t cs ov = some out →
      ∀ ch ∈ out, ch.content.length ≤ cs + min ov (cs / 2) + 2 := by
  intro fuel
  induction fuel with
  | zero =>
    intro t cs ov out _ h
    exact absurd h (by simp [chunkF])
  | succ f ih =>
    intro t cs ov out hov h
    rw [chunkF] at h
    by_cases hsmall : (pyStrip t).length ≤ cs
    · rw [if_pos hsmall] at h
      injection h with h2
      subst h2
      intro ch hch
      rcases List.mem_singleton.mp hch with rfl
      show (pyStrip t).length ≤ cs + min ov (cs / 2) + 2
      omega
    · rw [if_neg hsmall] at h
      cases hts : trySplit (pyStrip t) with
      | some sp =>
        rw [hts] at h
        have hidem : min (min ov (cs / 2)) (cs / 2) = min ov (cs / 2) := by omega
        have hrec : ∀ s out', chunkF f s cs (min ov (cs / 2)) = some out' →
            ∀ ch ∈ out', ch.content.length ≤ cs + min ov (cs / 2) + 2 := by
          intro s out' hs ch hch
          have := ih s cs (min ov (cs / 2)) out' (by omega) hs ch hch
          omega
        exact processGo_bound _ sp.1 cs (min ov (cs / 2)) hov
          (trySplit_sep_short (pyStrip t) sp.1 sp.2 hts) hrec sp.2 [] [] out (Or.inl rfl)
          (by simp) h
      | none =>
        rw [hts] at h
        intro ch hch
        have := splitW_bound (pyStrip t) cs (min ov (cs / 2)) hov f 0 [] out (by simp) h ch hch
        omega

/-- C7 amended: the bound must allow the re-inserted separator (at most 2
characters) on top of `chunk_size + overlap`, and only holds when the
clamped overlap `min(overlap, chunk_size // 2)` is at least 1 (with clamped
overlap 0 the Python slice `[-0:]` carries over whole chunks, so lengths
are unbounded).  Then, whenever `chunk` terminates, every produced chunk's
content length is at most `chunk_size + clamped_overlap + 2`, hence at most
`chunk_size + overlap + 2`. -/
theorem chunk_size_bound_amended (fuel : Nat) (t : List Char) (cs ov : Nat)
    (out : List Chunk) (hov : 1 ≤ min ov (cs / 2)) (h : chunkF fuel t cs ov = some out) :
    ∀ ch ∈ out, ch.content.length ≤ cs + min ov (cs / 2) + 2 ∧
      ch.content.length ≤ cs + ov + 2 := by
  intro ch hch
  have hb := chunkF_bound fuel t cs ov out hov h ch hch
  exact ⟨hb, by omega⟩

/-- C7 witness: `chunk("aaaa bbbb cccc", 6, 2)` terminates, and its second
chunk `"aa bbbb"` (the longest, at 7 characters) is within the amended
bound `6 + 2 + 2`. -/
theorem chunk_size_bound_amended_witness :
    (mkChunk (("aa bbbb").toList)).content.length ≤ 6 + min 2 (6 / 2) + 2 ∧
      (mkChunk (("aa bbbb").toList)).content.length ≤ 6 + 2 + 2 :=
  chunk_size_bound_amended 10 (("aaaa bbbb cccc").toList) 6 2
    [mkChunk (("aaaa").toList), mkChunk (("aa bbbb").toList), mkChunk (("bb cccc").toList)]
    (by decide) (by rfl) (mkChunk (("aa bbbb").toList)) (by decide)

theorem wordsOf_nil : wordsOf [] = [] := rfl

theorem wordsOf_cons_eq (c : Char) (cs : List Char) :
    wordsOf (c :: cs) =
      if pyIsSpace c = true then wordsOf cs
      else
        match cs with
        | [] => [[c]]
        | d :: _ =>
          if pyIsSpace d = true then [c] :: wordsOf cs
          else
            match wordsOf cs with
            | [] => [[c]]
            | w :: ws => (c :: w) :: ws := rfl

theorem wordsOf_ws_cons {c : Char} (h : pyIsSpace c = true) (cs : List Char) :
    wordsOf (c :: cs) = wordsOf cs := by
  rw [wordsOf_cons_eq, if_pos h]

theorem wordsOf_singleton_not_ws {c : Char} (h : pyIsSpace c = false) :
    wordsOf [c] = [[c]] := by
  rw [wordsOf_cons_eq]
  simp [h]

theorem wordsOf_cons_cons_ws {c d : Char} (h : pyIsSpace c = false)
    (hd : pyIsSpace d = true) (cs : List Char) :
    wordsOf (c :: d :: cs) = [c] :: wordsOf (d :: cs) := by
  rw [wordsOf_cons_eq]
  simp [h, hd]

theorem wordsOf_cons_cons_not_ws {c d : Char} (h : pyIsSpace c = false)
    (hd : pyIsSpace d = false) (cs : List Char) {w : List Char} {ws' : List (List Char)}
    (hw : wordsOf (d :: cs) = w :: ws') :
    wordsOf (c :: d :: cs) = (c :: w) :: ws' := by
  rw [wordsOf_cons_eq]
  simp [h, hd, hw]

theorem wordsOf_cons_ne_nil {c : Char} (h : pyIsSpace c = false) (cs : List Char) :
    wordsOf (c :: cs) ≠ [] := by
  cases cs with
  | nil => rw [wordsOf_singleton_not_ws h]; simp
  | cons d cs' =>
    cases hd : pyIsSpace d with
    | true => rw [wordsOf_cons_cons_ws h hd]; simp
    | false =>
      cases hw : wordsOf (d :: cs') with
      | nil => rw [wordsOf_cons_eq]; simp [h, hd, hw]
      | cons w ws' => rw [wordsOf_cons_cons_not_ws h hd _ hw]; simp

theorem wordsOf_ws_prefix {s : List Char} (hs : ∀ c ∈ s, pyIsSpace c = true) (b : List Char) :
    wordsOf (s ++ b) = wordsOf b := by
  induction s with
  | nil => rfl
  | cons w s' ih =>
    rw [List.cons_append, wordsOf_ws_cons (hs w (List.mem_cons_self w s'))]
    exact ih (fun c hc => hs c (List.mem_cons_of_mem w hc))

theorem wordsOf_all_ws {l : List Char} (h : ∀ c ∈ l, pyIsSpace c = true) :
    wordsOf l = [] := by
  have := wordsOf_ws_prefix h []
  rwa [List.append_nil] at this

theorem wordsOf_append_ws_single {w : Char} (hw : pyIsSpace w = true) :
    ∀ (a b : List Char), wordsOf (a ++ w :: b) = wordsOf a ++ wordsOf b := by
  intro a
  induction a with
  | nil =>
    intro b
    rw [List.nil_append, wordsOf_ws_cons hw, wordsOf_nil, List.nil_append]
  | cons c a' ih =>
    intro b
    cases hc : pyIsSpace c with
    | true => rw [List.cons_append, wordsOf_ws_cons hc, wordsOf_ws_cons hc, ih]
    | false =>
      cases a' with
      | nil =>
        rw [List.cons_append, List.nil_append, wordsOf_cons_cons_ws hc hw,
          wordsOf_ws_cons hw, wordsOf_singleton_not_ws hc]
        rfl
      | cons e a'' =>
        have hassoc : ((e :: a'') ++ w :: b) = e :: (a'' ++ w :: b) := rfl
        cases he : pyIsSpace e with
        | true =>
          rw [List.cons_append, hassoc, wordsOf_cons_cons_ws hc he,
            wordsOf_cons_cons_ws hc he, ← hassoc, ih]
          rfl
        | false =>
          obtain ⟨u₂, us₂, hu₂⟩ : ∃ u us, wordsOf (e :: a'') = u :: us := by
            cases hx : wordsOf (e :: a'') with
            | nil => exact absurd hx (wordsOf_cons_ne_nil he a'')
            | cons u us => exact ⟨u, us, rfl⟩
          have hih := ih b
          rw [hassoc] at hih
          rw [hu₂] at hih
          rw [List.cons_append] at hih ⊢
          rw [hassoc, wordsOf_cons_cons_not_ws hc he _ hih,
            wordsOf_cons_cons_not_ws hc he _ hu₂]
          rfl

theorem wordsOf_append_ws {sep : List Char} (hsep : sep ≠ [])
    (hws : ∀ c ∈ sep, pyIsSpace c = true) (a b : List Char) :
    wordsOf (a ++ sep ++ b) = wordsOf a ++ wordsOf b := by
  cases sep with
  | nil => exact absurd rfl hsep
  | cons w s' =>
    have : a ++ (w :: s') ++ b = a ++ w :: (s' ++ b) := by simp
    rw [this, wordsOf_append_ws_single (hws w (List.mem_cons_self w s')),
      wordsOf_ws_prefix (fun c hc => hws c (List.mem_cons_of_mem w hc))]

theorem wordsOf_ws_suffix {s : List Char} (hs : ∀ c ∈ s, pyIsSpace c = true) (a : List Char) :
    wordsOf (a ++ s) = wordsOf a := by
  cases s with
  | nil => rw [List.append_nil]
  | cons w s' =>
    rw [wordsOf_append_ws_single (hs w (List.mem_cons_self w s')),
      wordsOf_all_ws (fun c hc => hs c (List.mem_cons_of_mem w hc)), List.append_nil]

theorem rdropWhile_append_rtakeWhile (p : Char → Bool) (l : List Char) :
    l.rdropWhile p ++ l.rtakeWhile p = l := by
  rw [List.rdropWhile, List.rtakeWhile, ← List.reverse_append,
    List.takeWhile_append_dropWhile, List.reverse_reverse]

theorem wordsOf_dropWhile_ws (l : List Char) :
    wordsOf (l.dropWhile pyIsSpace) = wordsOf l := by
  induction l with
  | nil => rfl
  | cons c cs ih =>
    cases hc : pyIsSpace c with
    | true => rw [List.dropWhile_cons_of_pos hc, ih, wordsOf_ws_cons hc]
    | false => rw [List.dropWhile_cons_of_neg (by simp [hc])]

theorem wordsOf_rdropWhile_ws (l : List Char) :
    wordsOf (l.rdropWhile pyIsSpace) = wordsOf l := by
  conv_rhs => rw [← rdropWhile_append_rtakeWhile pyIsSpace l]
  rw [wordsOf_ws_suffix (fun c hc => List.mem_rtakeWhile_imp hc)]

theorem wordsOf_pyStrip (l : List Char) : wordsOf (pyStrip l) = wordsOf l := by
  rw [pyStrip, wordsOf_rdropWhile_ws, wordsOf_dropWhile_ws]

theorem infix_cons_split {w : List Char} {c : Char} {l : List Char} (h : w <:+: (c :: l)) :
    w <+: (c :: l) ∨ w <:+: l := by
  obtain ⟨s, t, hst⟩ := h
  cases s with
  | nil =>
    left
    exact ⟨t, by simpa using hst⟩
  | cons a s' =>
    right
    rw [List.cons_append, List.cons_append] at hst
    injection hst with _ h2
    exact ⟨s', t, h2⟩

theorem infix_cons_of_infix {w : List Char} {c : Char} {l : List Char} (h : w <:+: l) :
    w <:+: (c :: l) := by
  obtain ⟨s, t, hst⟩ := h
  exact ⟨c :: s, t, by rw [List.cons_append, List.cons_append, hst]⟩

theorem wordsOf_facts :
    ∀ l : List Char,
      (∀ w ∈ wordsOf l, w ≠ [] ∧ (∀ c ∈ w, pyIsSpace c = false) ∧ w <:+: l) ∧
      (∀ c cs, l = c :: cs → pyIsSpace c = false →
        ∃ u us, wordsOf l = u :: us ∧ u <+: l ∧
          (∀ v, (∀ x ∈ v, pyIsSpace x = false) → v <+: l → v <+: u)) := by
  intro l
  induction l with
  | nil =>
    refine ⟨fun w hw => absurd hw (by simp [wordsOf_nil]), fun c cs h _ => absurd h (by simp)⟩
  | cons c cs ih =>
    constructor
    · intro w hw
      cases hc : pyIsSpace c with
      | true =>
        rw [wordsOf_ws_cons hc] at hw
        obtain ⟨h1, h2, h3⟩ := (ih.1) w hw
        exact ⟨h1, h2, infix_cons_of_infix h3⟩
      | false =>
        cases cs with
        | nil =>
          rw [wordsOf_singleton_not_ws hc] at hw
          rcases List.mem_singleton.mp hw with rfl
          exact ⟨by simp, by simpa using hc, List.infix_refl _⟩
        | cons d cs' =>
          cases hd : pyIsSpace d with
          | true =>
            rw [wordsOf_cons_cons_ws hc hd] at hw
            rcases List.mem_cons.mp hw with rfl | hmem
            · exact ⟨by simp, by simpa using hc,
                (List.cons_prefix_cons.mpr ⟨rfl, List.nil_prefix⟩).isInfix⟩
            · obtain ⟨h1, h2, h3⟩ := (ih.1) w hmem
              exact ⟨h1, h2, infix_cons_of_infix h3⟩
          | false =>
            obtain ⟨u, us, hu, hupre, _⟩ := (ih.2) d cs' rfl hd
            rw [wordsOf_cons_cons_not_ws hc hd _ hu] at hw
            rcases List.mem_cons.mp hw with rfl | hmem
            · refine ⟨by simp, ?_, ?_⟩
              · intro x hx
                rcases List.mem_cons.mp hx with rfl | hxu
                · exact hc
                · exact ((ih.1) u (by rw [hu]; exact List.mem_cons_self u us)).2.1 x hxu
              · exact (List.cons_prefix_cons.mpr ⟨rfl, hupre⟩).isInfix
            · obtain ⟨h1, h2, h3⟩ := (ih.1) w (by rw [hu]; exact List.mem_cons_of_mem u hmem)
              exact ⟨h1, h2, infix_cons_of_infix h3⟩
    · intro c₀ cs₀ heq hc₀
      injection heq with he1 he2
      subst he1
      subst he2
      cases cs with
      | nil =>
        refine ⟨[c], [], wordsOf_singleton_not_ws hc₀, List.prefix_refl _, ?_⟩
        intro v _ hv
        exact hv
      | cons d cs' =>
        cases hd : pyIsSpace d with
        | true =>
          refine ⟨[c], wordsOf (d :: cs'), wordsOf_cons_cons_ws hc₀ hd cs', ?_, ?_⟩
          · exact List.cons_prefix_cons.mpr ⟨rfl, List.nil_prefix⟩
          · intro v hvfree hv
            cases v with
            | nil => exact List.nil_prefix
            | cons x v' =>
              obtain ⟨rfl, hv'⟩ := List.cons_prefix_cons.mp hv
              cases v' with
              | nil => exact List.prefix_refl _
              | cons y v'' =>
                obtain ⟨rfl, _⟩ := List.cons_prefix_cons.mp hv'
                exact absurd (hvfree y (by simp)) (by simp [hd])
        | false =>
          obtain ⟨u, us, hu, hupre, hmax⟩ := (ih.2) d cs' rfl hd
          refine ⟨c :: u, us, wordsOf_cons_cons_not_ws hc₀ hd _ hu,
            List.cons_prefix_cons.mpr ⟨rfl, hupre⟩, ?_⟩
          intro v hvfree hv
          cases v with
          | nil => exact List.nil_prefix
          | cons x v' =>
            obtain ⟨rfl, hv'⟩ := List.cons_prefix_cons.mp hv
            refine List.cons_prefix_cons.mpr ⟨rfl, ?_⟩
            exact hmax v' (fun y hy => hvfree y (List.mem_cons_of_mem x hy)) hv'

theorem word_in_words_of_infix :
    ∀ (l w : List Char), w ≠ [] → (∀ c ∈ w, pyIsSpace c = false) → w <:+: l →
      ∃ u ∈ wordsOf l, w <:+: u := by
  intro l
  induction l with
  | nil =>
    intro w hne _ hinf
    rw [List.infix_nil] at hinf
    exact absurd hinf hne
  | cons c cs ih =>
    intro w hne hwsf hinf
    rcases infix_cons_split hinf with hpre | hinf'
    · cases w with
      | nil => exact absurd rfl hne
      | cons x w' =>
        obtain ⟨heq, hw'⟩ := List.cons_prefix_cons.mp hpre
        have hc : pyIsSpace c = false := heq ▸ hwsf x (List.mem_cons_self x w')
        obtain ⟨u, us, hu, _, hmax⟩ := (wordsOf_facts (c :: cs)).2 c cs rfl hc
        refine ⟨u, by rw [hu]; exact List.mem_cons_self u us, ?_⟩
        exact (hmax (x :: w') hwsf hpre).isInfix
    · obtain ⟨u, hu_mem, hwu⟩ := ih w hne hwsf hinf'
      cases hc : pyIsSpace c with
      | true =>
        rw [wordsOf_ws_cons hc]
        exact ⟨u, hu_mem, hwu⟩
      | false =>
        cases cs with
        | nil => exact absurd hu_mem (by simp [wordsOf_nil])
        | cons d cs' =>
          cases hd : pyIsSpace d with
          | true =>
            rw [wordsOf_cons_cons_ws hc hd]
            exact ⟨u, List.mem_cons_of_mem _ hu_mem, hwu⟩
          | false =>
            obtain ⟨u₀, us₀, hu₀, _, _⟩ := (wordsOf_facts (d :: cs')).2 d cs' rfl hd
            rw [wordsOf_cons_cons_not_ws hc hd _ hu₀]
            rw [hu₀] at hu_mem
            rcases List.mem_cons.mp hu_mem with rfl | hmem
            · exact ⟨c :: u, List.mem_cons_self _ _,
                hwu.trans ⟨[c], [], by simp⟩⟩
            · exact ⟨u, List.mem_cons_of_mem _ hmem, hwu⟩

theorem wordsBounded_of_infix {l' l : List Char} {n : Nat} (hinf : l' <:+: l)
    (hb : wordsBounded l n) : wordsBounded l' n := by
  intro w hw
  obtain ⟨hne, hwsf, hwinf⟩ := (wordsOf_facts l').1 w hw
  obtain ⟨u, hu, hwu⟩ := word_in_words_of_infix l w hne hwsf (hwinf.trans hinf)
  exact le_trans hwu.length_le (hb u hu)

theorem wordsOf_ws_free_whole {l : List Char} (hne : l ≠ [])
    (hfree : ∀ c ∈ l, pyIsSpace c = false) : wordsOf l = [l] := by
  induction l with
  | nil => exact absurd rfl hne
  | cons c cs ih =>
    have hc : pyIsSpace c = false := hfree c (List.mem_cons_self c cs)
    cases cs with
    | nil => exact wordsOf_singleton_not_ws hc
    | cons d cs' =>
      have hd : pyIsSpace d = false := hfree d (by simp)
      have hcs : wordsOf (d :: cs') = [d :: cs'] :=
        ih (by simp) (fun x hx => hfree x (List.mem_cons_of_mem c hx))
      rw [wordsOf_cons_cons_not_ws hc hd _ hcs]

theorem isPrefixOf_eq_append {sep : List Char} :
    ∀ {l : List Char}, sep.isPrefixOf l = true → l = sep ++ l.drop sep.length := by
  induction sep with
  | nil => intro l _; simp
  | cons s sep' ih =>
    intro l h
    cases l with
    | nil => simp [List.isPrefixOf] at h
    | cons c cs =>
      simp only [List.isPrefixOf, Bool.and_eq_true, beq_iff_eq] at h
      obtain ⟨rfl, h2⟩ := h
      have := ih h2
      rw [List.length_cons, List.cons_append, List.drop_succ_cons]
      exact congrArg _ this

theorem breakOnSep_some {sep : List Char} :
    ∀ {l : List Char} {r : List Char × List Char}, breakOnSep sep l = some r →
      l = r.1 ++ sep ++ r.2 := by
  intro l
  induction l with
  | nil => intro r h; simp [breakOnSep] at h
  | cons c cs ih =>
    intro r h
    rw [breakOnSep] at h
    by_cases hp : sep.isPrefixOf (c :: cs) = true
    · rw [if_pos hp] at h
      injection h with h2
      subst h2
      simpa using isPrefixOf_eq_append hp
    · rw [if_neg hp] at h
      cases hb : breakOnSep sep cs with
      | none => rw [hb] at h; exact absurd h (by simp)
      | some r' =>
        rw [hb] at h
        simp only [Option.map_some', Option.some.injEq] at h
        subst h
        have := ih hb
        simp only []
        rw [List.cons_append, List.cons_append, ← this]

theorem breakOnSep_mem {c : Char} :
    ∀ {l : List Char}, c ∈ l → ∃ r, breakOnSep [c] l = some r := by
  intro l
  induction l with
  | nil => intro h; simp at h
  | cons x xs ih =>
    intro h
    rw [breakOnSep]
    by_cases hp : List.isPrefixOf [c] (x :: xs) = true
    · rw [if_pos hp]
      exact ⟨_, rfl⟩
    · have hcx : c ∈ xs := by
        rcases List.mem_cons.mp h with rfl | hm
        · exact absurd (by simp [List.isPrefixOf]) hp
        · exact hm
      obtain ⟨r, hr⟩ := ih hcx
      rw [if_neg hp, hr]
      exact ⟨_, rfl⟩

theorem splitGo_ne_nil (sep : List Char) (f : Nat) (l : List Char) :
    splitGo sep f l ≠ [] := by
  cases f with
  | zero => simp [splitGo]
  | succ f =>
    rw [splitGo]
    cases breakOnSep sep l <;> simp

theorem splitGo_joinSep {sep : List Char} (hsep : sep ≠ []) :
    ∀ (f : Nat) (l : List Char), l.length ≤ f → joinSep sep (splitGo sep f l) = l := by
  intro f
  induction f with
  | zero =>
    intro l hl
    have : l = [] := List.eq_nil_of_length_eq_zero (by omega)
    subst this
    rfl
  | succ f ih =>
    intro l hl
    rw [splitGo]
    cases hb : breakOnSep sep l with
    | none => rfl
    | some r =>
      have hdecomp := breakOnSep_some hb
      have hsl : 1 ≤ sep.length := by
        cases sep
        · exact absurd rfl hsep
        · simp
      have hlen : r.2.length ≤ f := by
        have hl2 : l.length = r.1.length + sep.length + r.2.length := by
          rw [hdecomp, List.length_append, List.length_append]
        omega
      dsimp only
      cases hsg : splitGo sep f r.2 with
      | nil => exact absurd hsg (splitGo_ne_nil sep f r.2)
      | cons q qs =>
        have hjs : joinSep sep (r.1 :: q :: qs) = r.1 ++ sep ++ joinSep sep (q :: qs) := rfl
        rw [hjs, ← hsg, ih r.2 hlen, ← hdecomp]

theorem splitGo_parts_infix {sep : List Char} (hsep : sep ≠ []) :
    ∀ (f : Nat) (l p : List Char), l.length ≤ f → p ∈ splitGo sep f l → p <:+: l := by
  intro f
  induction f with
  | zero =>
    intro l p _ hp
    rw [splitGo] at hp
    rcases List.mem_singleton.mp hp with rfl
    exact List.infix_refl p
  | succ f ih =>
    intro l p hl hp
    rw [splitGo] at hp
    cases hb : breakOnSep sep l with
    | none =>
      rw [hb] at hp
      rcases List.mem_singleton.mp hp with rfl
      exact List.infix_refl p
    | some r =>
      rw [hb] at hp
      have hdecomp := breakOnSep_some hb
      have hsl : 1 ≤ sep.length := by
        cases sep
        · exact absurd rfl hsep
        · simp
      rcases List.mem_cons.mp hp with rfl | hmem
      · exact ⟨[], sep ++ r.2, by rw [hdecomp]; simp⟩
      · have hlen : r.2.length ≤ f := by
          have hl2 : l.length = r.1.length + sep.length + r.2.length := by
            rw [hdecomp, List.length_append, List.length_append]
          omega
        have hsuf : r.2 <:+ l := ⟨r.1 ++ sep, by rw [hdecomp]⟩
        exact (ih r.2 p hlen hmem).trans hsuf.isInfix

theorem splitOnL_gt_one_decomp {sep l : List Char}
    (h : 1 < (splitOnL sep l).length) : ∃ a b, l = a ++ sep ++ b := by
  unfold splitOnL at h
  cases hl : l.length with
  | zero =>
    rw [hl, splitGo] at h
    simp at h
  | succ m =>
    rw [hl, splitGo] at h
    cases hb : breakOnSep sep l with
    | none => rw [hb] at h; simp at h
    | some r => exact ⟨r.1, r.2, breakOnSep_some hb⟩

theorem splitOnL_single_gt_one {c : Char} {l : List Char} (h : c ∈ l) :
    1 < (splitOnL [c] l).length := by
  obtain ⟨r, hr⟩ := breakOnSep_mem h
  unfold splitOnL
  cases hl : l.length with
  | zero =>
    have : l = [] := List.eq_nil_of_length_eq_zero hl
    subst this
    simp at h
  | succ m =>
    rw [splitGo, hr, List.length_cons]
    have := splitGo_ne_nil [c] m r.2
    have hpos : 0 < (splitGo [c] m r.2).length := List.length_pos.mpr this
    omega

theorem wordsOf_joinSep {sep : List Char} (hsep : sep ≠ [])
    (hws : ∀ c ∈ sep, pyIsSpace c = true) :
    ∀ parts : List (List Char), parts ≠ [] →
      wordsOf (joinSep sep parts) = (parts.map wordsOf).flatten := by
  intro parts
  induction parts with
  | nil => intro hne; exact absurd rfl hne
  | cons p ps ih =>
    intro _
    cases ps with
    | nil => simp [joinSep]
    | cons q qs =>
      have hjs : joinSep sep (p :: q :: qs) = p ++ sep ++ joinSep sep (q :: qs) := rfl
      rw [hjs, wordsOf_append_ws hsep hws, ih (by simp)]
      simp

theorem wordsOf_splitOnL {sep l : List Char} (hsep : sep ≠ [])
    (hws : ∀ c ∈ sep, pyIsSpace c = true) :
    wordsOf l = ((splitOnL sep l).map wordsOf).flatten := by
  conv_lhs => rw [← splitGo_joinSep hsep l.length l le_rfl]
  exact wordsOf_joinSep hsep hws _ (splitGo_ne_nil sep l.length l)

theorem eq_nil_of_isEmpty {α : Type} {l : List α} (h : l.isEmpty = true) : l = [] := by
  cases l
  · rfl
  · simp at h

theorem mem_of_getLast?_eq {α : Type} : ∀ {l : List α} {x : α}, l.getLast? = some x → x ∈ l := by
  intro l
  induction l with
  | nil => intro x h; simp at h
  | cons a l' ih =>
    intro x h
    cases l' with
    | nil =>
      simp at h
      simp [h]
    | cons b l'' =>
      rw [List.getLast?_cons_cons] at h
      exact List.mem_cons_of_mem a (ih h)

theorem infix_pyStrip (l : List Char) : pyStrip l <:+: l :=
  (List.rdropWhile_prefix pyIsSpace (l.dropWhile pyIsSpace)).isInfix.trans
    (List.dropWhile_suffix pyIsSpace).isInfix

theorem prevEnd_suffix (ov : Nat) (l : List Char) : prevEnd ov l <:+ l := by
  unfold prevEnd pySuffix
  split
  · split
    · exact List.suffix_refl l
    · exact List.drop_suffix _ l
  · exact List.nil_suffix

theorem chunkTextInv_nil {n : Nat} : chunkTextInv n [] := by
  refine ⟨fun c hc => absurd hc (List.not_mem_nil c), by simp, fun w hw => ?_⟩
  rw [wordsOf_nil] at hw
  exact absurd hw (List.not_mem_nil w)

theorem chunkTextInv_of_infix {n : Nat} {l' l : List Char} (hinf : l' <:+: l)
    (h : chunkTextInv n l) : chunkTextInv n l' := by
  obtain ⟨h1, h2, h3⟩ := h
  refine ⟨fun c hc hws => h1 c (hinf.subset hc) hws, fun hdot => h2 (hinf.subset hdot),
    wordsBounded_of_infix hinf h3⟩

theorem sepAllowed_facts {sep : List Char}
    (hsep : sep = [' '] ∨ sep = ['\n'] ∨ sep = ['\n', '\n']) :
    sep ≠ [] ∧ (∀ c ∈ sep, pyIsSpace c = true) ∧
      (∀ c ∈ sep, c = ' ' ∨ c = '\n') ∧ '.' ∉ sep := by
  rcases hsep with rfl | rfl | rfl
  · exact ⟨by simp, by decide, by decide, by decide⟩
  · exact ⟨by simp, by decide, by decide, by decide⟩
  · exact ⟨by simp, by decide, by decide, by decide⟩

theorem chunkTextInv_append_sep {n : Nat} {sep a b : List Char}
    (hsep : sep = [' '] ∨ sep = ['\n'] ∨ sep = ['\n', '\n'])
    (ha : chunkTextInv n a) (hb : chunkTextInv n b) : chunkTextInv n (a ++ sep ++ b) := by
  obtain ⟨hne, hws, hchars, hnodot⟩ := sepAllowed_facts hsep
  obtain ⟨ha1, ha2, ha3⟩ := ha
  obtain ⟨hb1, hb2, hb3⟩ := hb
  refine ⟨?_, ?_, ?_⟩
  · intro c hc hcw
    rcases List.mem_append.mp hc with hc' | hc'
    · rcases List.mem_append.mp hc' with hc'' | hc''
      · exact ha1 c hc'' hcw
      · exact hchars c hc''
    · exact hb1 c hc' hcw
  · intro hdot
    rcases List.mem_append.mp hdot with hd | hd
    · rcases List.mem_append.mp hd with hd' | hd'
      · exact ha2 hd'
      · exact hnodot hd'
    · exact hb2 hd
  · intro w hw
    rw [wordsOf_append_ws hne hws] at hw
    rcases List.mem_append.mp hw with hw' | hw'
    · exact ha3 w hw'
    · exact hb3 w hw'

theorem chunkTextInv_seedChunk {n : Nat} {sep prev part : List Char}
    (hsep : sep = [' '] ∨ sep = ['\n'] ∨ sep = ['\n', '\n'])
    (hprev : chunkTextInv n prev) (hpart : chunkTextInv n part) :
    chunkTextInv n (seedChunk prev sep part) := by
  unfold seedChunk
  cases hpe : prev.isEmpty with
  | true => simpa using hpart
  | false =>
    have : (prev ++ sep) ++ part = prev ++ sep ++ part := rfl
    rw [if_neg (by simp [hpe])]
    exact chunkTextInv_append_sep hsep hprev hpart

theorem chunkTextInv_potentialChunk {n : Nat} {sep cur part : List Char}
    (hsep : sep = [' '] ∨ sep = ['\n'] ∨ sep = ['\n', '\n'])
    (hcur : chunkTextInv n cur) (hpart : chunkTextInv n part) :
    chunkTextInv n (potentialChunk cur sep part) := by
  unfold potentialChunk
  cases hce : cur.isEmpty with
  | true =>
    rw [eq_nil_of_isEmpty hce]
    simpa using hpart
  | false =>
    rw [if_neg (by simp [hce])]
    exact chunkTextInv_append_sep hsep hcur hpart

theorem chunkTextInv_closedPrev {n : Nat} {ov : Nat} {cur prev : List Char}
    (hcur : chunkTextInv n cur) (hprev : chunkTextInv n prev) :
    chunkTextInv n (closedPrev ov cur prev) := by
  unfold closedPrev
  split
  · exact hprev
  · exact chunkTextInv_of_infix (prevEnd_suffix ov cur).isInfix hcur

theorem chunkTextInv_prevEnd {n : Nat} {ov : Nat} {l : List Char}
    (h : chunkTextInv n l) : chunkTextInv n (prevEnd ov l) :=
  chunkTextInv_of_infix (prevEnd_suffix ov l).isInfix h

theorem mem_wordsOf_seedChunk {sep prev part w : List Char}
    (hsep : sep = [' '] ∨ sep = ['\n'] ∨ sep = ['\n', '\n'])
    (h : w ∈ wordsOf part) : w ∈ wordsOf (seedChunk prev sep part) := by
  obtain ⟨hne, hws, _, _⟩ := sepAllowed_facts hsep
  unfold seedChunk
  cases hpe : prev.isEmpty with
  | true => simpa using h
  | false =>
    rw [if_neg (by simp [hpe]), wordsOf_append_ws hne hws]
    exact List.mem_append_right _ h

theorem mem_wordsOf_potentialChunk_left {sep cur part w : List Char}
    (hsep : sep = [' '] ∨ sep = ['\n'] ∨ sep = ['\n', '\n'])
    (h : w ∈ wordsOf cur) : w ∈ wordsOf (potentialChunk cur sep part) := by
  obtain ⟨hne, hws, _, _⟩ := sepAllowed_facts hsep
  unfold potentialChunk
  cases hce : cur.isEmpty with
  | true =>
    rw [eq_nil_of_isEmpty hce, wordsOf_nil] at h
    exact absurd h (List.not_mem_nil w)
  | false =>
    rw [if_neg (by simp [hce]), wordsOf_append_ws hne hws]
    exact List.mem_append_left _ h

theorem mem_wordsOf_potentialChunk_right {sep cur part w : List Char}
    (hsep : sep = [' '] ∨ sep = ['\n'] ∨ sep = ['\n', '\n'])
    (h : w ∈ wordsOf part) : w ∈ wordsOf (potentialChunk cur sep part) := by
  obtain ⟨hne, hws, _, _⟩ := sepAllowed_facts hsep
  unfold potentialChunk
  cases hce : cur.isEmpty with
  | true =>
    rw [eq_nil_of_isEmpty hce]
    simpa using h
  | false =>
    rw [if_neg (by simp [hce]), wordsOf_append_ws hne hws]
    exact List.mem_append_right _ h

theorem coveredBy_append_left {w : List Char} {out out' : List Chunk}
    (h : coveredBy w out) : coveredBy w (out ++ out') := by
  obtain ⟨ch, hch, hw⟩ := h
  exact ⟨ch, List.mem_append_left _ hch, hw⟩

theorem coveredBy_append_right {w : List Char} {out out' : List Chunk}
    (h : coveredBy w out') : coveredBy w (out ++ out') := by
  obtain ⟨ch, hch, hw⟩ := h
  exact ⟨ch, List.mem_append_right _ hch, hw⟩

theorem processGo_cover (chunkRec : List Char → Option (List Chunk)) (sep : List Char)
    (cs ov : Nat) (hsep : sep = [' '] ∨ sep = ['\n'] ∨ sep = ['\n', '\n'])
    (hrec : ∀ s out', chunkTextInv cs s → chunkRec s = some out' →
      (∀ w ∈ wordsOf s, coveredBy w out') ∧ (∀ ch ∈ out', chunkTextInv cs ch.content)) :
    ∀ (ps : List (List Char)) (cur prev : List Char) (out : List Chunk),
      chunkTextInv cs cur → chunkTextInv cs prev → (∀ p ∈ ps, chunkTextInv cs p) →
      processGo chunkRec sep cs ov ps cur prev = some out →
      (∀ w ∈ wordsOf cur, coveredBy w out) ∧
      (∀ p ∈ ps, ∀ w ∈ wordsOf p, coveredBy w out) ∧
      (∀ ch ∈ out, chunkTextInv cs ch.content) := by
  intro ps
  induction ps with
  | nil =>
    intro cur prev out hcur hprev _ h
    rw [processGo] at h
    injection h with h2
    subst h2
    refine ⟨?_, fun p hp => absurd hp (List.not_mem_nil p), ?_⟩
    · intro w hw
      cases hce : cur.isEmpty with
      | true =>
        rw [eq_nil_of_isEmpty hce, wordsOf_nil] at hw
        exact absurd hw (List.not_mem_nil w)
      | false =>
        rw [if_neg (by simp [hce])]
        exact ⟨mkChunk cur, List.mem_singleton.mpr rfl, hw⟩
    · intro ch hch
      cases hce : cur.isEmpty with
      | true =>
        rw [if_pos (by simp [hce])] at hch
        exact absurd hch (List.not_mem_nil ch)
      | false =>
        rw [if_neg (by simp [hce])] at hch
        rcases List.mem_singleton.mp hch with rfl
        exact hcur
  | cons p ps ih =>
    intro cur prev out hcur hprev hps h
    have hpinv : chunkTextInv cs (pyStrip p) :=
      chunkTextInv_of_infix (infix_pyStrip p) (hps p (List.mem_cons_self p ps))
    have hpsrest : ∀ q ∈ ps, chunkTextInv cs q := fun q hq => hps q (List.mem_cons_of_mem p hq)
    rw [processGo] at h
    by_cases hpe : (pyStrip p).isEmpty = true
    · rw [if_pos hpe] at h
      obtain ⟨hc1, hc2, hc3⟩ := ih cur prev out hcur hprev hpsrest h
      refine ⟨hc1, ?_, hc3⟩
      intro q hq
      rcases List.mem_cons.mp hq with rfl | hq'
      · intro w hw
        rw [← wordsOf_pyStrip q, eq_nil_of_isEmpty hpe, wordsOf_nil] at hw
        exact absurd hw (List.not_mem_nil w)
      · exact hc2 q hq'
    · rw [if_neg hpe] at h
      by_cases hbig : cs < (pyStrip p).length
      · rw [if_pos hbig] at h
        cases hsub : chunkRec (seedChunk prev sep (pyStrip p)) with
        | none => rw [hsub] at h; exact Option.noConfusion h
        | some subs =>
          rw [hsub] at h
          dsimp only at h
          have hseedinv : chunkTextInv cs (seedChunk prev sep (pyStrip p)) :=
            chunkTextInv_seedChunk hsep hprev hpinv
          obtain ⟨hcov_subs, hinv_subs⟩ := hrec _ subs hseedinv hsub
          have hprev' : chunkTextInv cs (subsPrev ov subs prev) := by
            unfold subsPrev
            cases hgl : subs.getLast? with
            | none => exact hprev
            | some lastSub =>
              exact chunkTextInv_prevEnd (hinv_subs lastSub (mem_of_getLast?_eq hgl))
          cases hrest : processGo chunkRec sep cs ov ps cur (subsPrev ov subs prev) with
          | none => rw [hrest] at h; exact Option.noConfusion h
          | some rest =>
            rw [hrest] at h
            injection h with h2
            subst h2
            obtain ⟨hc1, hc2, hc3⟩ := ih cur _ rest hcur hprev' hpsrest hrest
            refine ⟨fun w hw => coveredBy_append_right (hc1 w hw), ?_, ?_⟩
            · intro q hq
              rcases List.mem_cons.mp hq with rfl | hq'
              · intro w hw
                rw [← wordsOf_pyStrip q] at hw
                exact coveredBy_append_left
                  (hcov_subs w (mem_wordsOf_seedChunk hsep hw))
              · exact fun w hw => coveredBy_append_right (hc2 q hq' w hw)
            · intro ch hch
              rcases List.mem_append.mp hch with hm | hm
              · exact hinv_subs ch hm
              · exact hc3 ch hm
      · rw [if_neg hbig] at h
        by_cases hpot : cs < (potentialChunk cur sep (pyStrip p)).length
        · rw [if_pos hpot] at h
          have hprev' : chunkTextInv cs (closedPrev ov cur prev) :=
            chunkTextInv_closedPrev hcur hprev
          have hcur' : chunkTextInv cs (seedChunk (closedPrev ov cur prev) sep (pyStrip p)) :=
            chunkTextInv_seedChunk hsep hprev' hpinv
          cases hrest : processGo chunkRec sep cs ov ps
              (seedChunk (closedPrev ov cur prev) sep (pyStrip p)) (closedPrev ov cur prev) with
          | none => rw [hrest] at h; exact Option.noConfusion h
          | some rest =>
            rw [hrest] at h
            dsimp only at h
            injection h with h2
            subst h2
            obtain ⟨hc1, hc2, hc3⟩ := ih _ _ rest hcur' hprev' hpsrest hrest
            refine ⟨?_, ?_, ?_⟩
            · intro w hw
              cases hce : cur.isEmpty with
              | true =>
                rw [eq_nil_of_isEmpty hce, wordsOf_nil] at hw
                exact absurd hw (List.not_mem_nil w)
              | false =>
                rw [if_neg (by simp [hce])]
                exact coveredBy_append_left ⟨mkChunk cur, List.mem_singleton.mpr rfl, hw⟩
            · intro q hq
              rcases List.mem_cons.mp hq with rfl | hq'
              · intro w hw
                rw [← wordsOf_pyStrip q] at hw
                exact coveredBy_append_right (hc1 w (mem_wordsOf_seedChunk hsep hw))
              · exact fun w hw => coveredBy_append_right (hc2 q hq' w hw)
            · intro ch hch
              rcases List.mem_append.mp hch with hm | hm
              · cases hce : cur.isEmpty with
                | true =>
                  rw [if_pos (by simp [hce])] at hm
                  exact absurd hm (List.not_mem_nil ch)
                | false =>
                  rw [if_neg (by simp [hce])] at hm
                  rcases List.mem_singleton.mp hm with rfl
                  exact hcur
              · exact hc3 ch hm
        · rw [if_neg hpot] at h
          have hcurpot : chunkTextInv cs (potentialChunk cur sep (pyStrip p)) :=
            chunkTextInv_potentialChunk hsep hcur hpinv
          obtain ⟨hc1, hc2, hc3⟩ := ih _ prev out hcurpot hprev hpsrest h
          refine ⟨?_, ?_, hc3⟩
          · exact fun w hw => hc1 w (mem_wordsOf_potentialChunk_left hsep hw)
          · intro q hq
            rcases List.mem_cons.mp hq with rfl | hq'
            · intro w hw
              rw [← wordsOf_pyStrip q] at hw
              exact hc1 w (mem_wordsOf_potentialChunk_right hsep hw)
            · exact hc2 q hq'

theorem trySplit_cases {t : List Char} {sp : List Char × List (List Char)}
    (h : trySplit t = some sp) :
    (sp.1 = ['\n', '\n'] ∨ sp.1 = ['\n'] ∨ sp.1 = ['.', ' '] ∨ sp.1 = [' ']) ∧
      sp.2 = splitOnL sp.1 t ∧ 1 < sp.2.length := by
  simp only [trySplit] at h
  split at h
  · rename_i hcond
    injection h with h2
    cases h2
    exact ⟨Or.inl rfl, rfl, hcond⟩
  · split at h
    · rename_i hcond
      injection h with h2
      cases h2
      exact ⟨Or.inr (Or.inl rfl), rfl, hcond⟩
    · split at h
      · rename_i hcond
        injection h with h2
        cases h2
        exact ⟨Or.inr (Or.inr (Or.inl rfl)), rfl, hcond⟩
      · split at h
        · rename_i hcond
          injection h with h2
          cases h2
          exact ⟨Or.inr (Or.inr (Or.inr rfl)), rfl, hcond⟩
        · exact absurd h (by simp)

theorem trySplit_none {t : List Char} (h : trySplit t = none) :
    ¬ 1 < (splitOnL ['\n'] t).length ∧ ¬ 1 < (splitOnL [' '] t).length := by
  simp only [trySplit] at h
  split at h
  · exact absurd h (by simp)
  · split at h
    · exact absurd h (by simp)
    · split at h
      · exact absurd h (by simp)
      · split at h
        · exact absurd h (by simp)
        · rename_i h1 h2 h3 h4
          exact ⟨h2, h4⟩

theorem chunkF_cover :
    ∀ (fuel : Nat) (t : List Char) (cs ov : Nat) (out : List Chunk),
      chunkTextInv cs t → chunkF fuel t cs ov = some out →
      (∀ w ∈ wordsOf t, coveredBy w out) ∧ (∀ ch ∈ out, chunkTextInv cs ch.content) := by
  intro fuel
  induction fuel with
  | zero =>
    intro t cs ov out _ h
    exact absurd h (by simp [chunkF])
  | succ f ih =>
    intro t cs ov out hinv h
    have hstripinv : chunkTextInv cs (pyStrip t) :=
      chunkTextInv_of_infix (infix_pyStrip t) hinv
    rw [chunkF] at h
    by_cases hsmall : (pyStrip t).length ≤ cs
    · rw [if_pos hsmall] at h
      injection h with h2
      subst h2
      refine ⟨?_, ?_⟩
      · intro w hw
        rw [← wordsOf_pyStrip t] at hw
        exact ⟨mkChunk (pyStrip t), List.mem_singleton.mpr rfl, hw⟩
      · intro ch hch
        rcases List.mem_singleton.mp hch with rfl
        exact hstripinv
    · rw [if_neg hsmall] at h
      cases hts : trySplit (pyStrip t) with
      | some sp =>
        rw [hts] at h
        obtain ⟨hsp1, hsp2, hsp3⟩ := trySplit_cases hts
        have hsep : sp.1 = [' '] ∨ sp.1 = ['\n'] ∨ sp.1 = ['\n', '\n'] := by
          rcases hsp1 with h1 | h1 | h1 | h1
          · exact Or.inr (Or.inr h1)
          · exact Or.inr (Or.inl h1)
          · exfalso
            rw [hsp2, h1] at hsp3
            obtain ⟨a, b, hab⟩ := splitOnL_gt_one_decomp hsp3
            have hdot : '.' ∈ pyStrip t := by
              rw [hab]
              exact List.mem_append_left _ (List.mem_append_right _ (by simp))
            exact hinv.2.1 ((infix_pyStrip t).subset hdot)
          · exact Or.inl h1
        obtain ⟨hsne, hsws, _, _⟩ := sepAllowed_facts hsep
        have hparts : ∀ p ∈ sp.2, chunkTextInv cs p := by
          intro p hp
          rw [hsp2] at hp
          have hpin : p <:+: pyStrip t :=
            splitGo_parts_infix hsne (pyStrip t).length (pyStrip t) p le_rfl hp
          exact chunkTextInv_of_infix hpin hstripinv
        have hrec' : ∀ s out', chunkTextInv cs s →
            chunkF f s cs (min ov (cs / 2)) = some out' →
            (∀ w ∈ wordsOf s, coveredBy w out') ∧
              (∀ ch ∈ out', chunkTextInv cs ch.content) :=
          fun s out' hs hsome => ih s cs (min ov (cs / 2)) out' hs hsome
        obtain ⟨_, hcov_parts, hinv_out⟩ := processGo_cover
          (fun s => chunkF f s cs (min ov (cs / 2))) sp.1 cs (min ov (cs / 2)) hsep hrec'
          sp.2 [] [] out chunkTextInv_nil chunkTextInv_nil hparts h
        refine ⟨?_, hinv_out⟩
        intro w hw
        rw [← wordsOf_pyStrip t, wordsOf_splitOnL hsne hsws] at hw
        obtain ⟨L, hL, hwL⟩ := List.mem_flatten.mp hw
        obtain ⟨q, hq, rfl⟩ := List.mem_map.mp hL
        rw [← hsp2] at hq
        exact hcov_parts q hq w hwL
      | none =>
        exfalso
        obtain ⟨hn1, hn2⟩ := trySplit_none hts
        have hnospace : ' ' ∉ pyStrip t := fun hm => hn2 (splitOnL_single_gt_one hm)
        have hnonl : '\n' ∉ pyStrip t := fun hm => hn1 (splitOnL_single_gt_one hm)
        have hfree : ∀ c ∈ pyStrip t, pyIsSpace c = false := by
          intro c hc
          cases hcs : pyIsSpace c with
          | false => rfl
          | true =>
            rcases hstripinv.1 c hc hcs with rfl | rfl
            · exact absurd hc hnospace
            · exact absurd hc hnonl
        have hne : pyStrip t ≠ [] := by
          intro he
          rw [he] at hsmall
          exact hsmall (by simp)
        have hwhole : wordsOf (pyStrip t) = [pyStrip t] := wordsOf_ws_free_whole hne hfree
        have hbound := hstripinv.2.2 (pyStrip t)
          (by rw [hwhole]; exact List.mem_singleton.mpr rfl)
        exact hsmall hbound

/-- C1 counterexample: with `chunk_size = 6`, `overlap = 2 < 6/2`, the text
`"aaaa. bbbb"` is split on the `". "` separator, which strips the sentence
terminator: the produced chunks are `"aaaa"` and `"aa. bbbb"`, and the
whitespace-separated word `"aaaa."` of the input appears in neither — so
the union of words across chunks is NOT a superset of the words of the
input. -/
theorem chunk_coverage_cex :
    chunkF 10 (("aaaa. bbbb").toList) 6 2 =
      some [mkChunk (("aaaa").toList), mkChunk (("aa. bbbb").toList)] ∧
    (("aaaa.").toList) ∈ wordsOf (("aaaa. bbbb").toList) ∧
    (2 : Nat) < 6 / 2 ∧
    (∀ ch ∈ [mkChunk (("aaaa").toList), mkChunk (("aa. bbbb").toList)],
      (("aaaa.").toList) ∉ wordsOf ch.content) := by
  refine ⟨rfl, by decide, by decide, by decide⟩

/-- C1 amended: for input texts whose whitespace consists only of spaces
and newlines, that contain no `'.'` (the `". "` splitter drops sentence
terminators at chunk boundaries), and whose whitespace-separated words are
each at most `chunk_size` long (longer unbroken tokens reach the
fixed-width fallback, which cuts words — and, per C10, does not even
terminate), whenever `chunk` terminates the union of whitespace-separated
words across the produced chunks is a superset of the words of the input:
no word is dropped, while overlap may duplicate words. -/
theorem chunk_coverage_amended (fuel : Nat) (t : List Char) (cs ov : Nat)
    (out : List Chunk) (hA : wsRestricted t) (hB : '.' ∉ t) (hC : wordsBounded t cs)
    (h : chunkF fuel t cs ov = some out) :
    ∀ w ∈ wordsOf t, coveredBy w out :=
  (chunkF_cover fuel t cs ov out ⟨hA, hB, hC⟩ h).1

/-- C1 witness: `chunk("aaaa bbbb cccc", 6, 2)` terminates with chunks
`"aaaa"`, `"aa bbbb"`, `"bb cccc"`, and the middle word `"bbbb"` of the
input — which straddles a chunk boundary — appears in a produced chunk. -/
theorem chunk_coverage_amended_witness :
    coveredBy (("bbbb").toList)
      [mkChunk (("aaaa").toList), mkChunk (("aa bbbb").toList),
        mkChunk (("bb cccc").toList)] :=
  chunk_coverage_amended 10 (("aaaa bbbb cccc").toList) 6 2
    [mkChunk (("aaaa").toList), mkChunk (("aa bbbb").toList), mkChunk (("bb cccc").toList)]
    (by decide) (by decide) (by decide) (by rfl) (("bbbb").toList) (by decide)

end VeritasAI
